import Mathlib

/-!
# Verification of the BlazeDock Go-module linker

Shallow embedding of the `linker` package
(`LinkGoWorkspace`, `LinkGoModules`, `linkGoModule`, `modifyGoMod`,
`addReplace`, `removeBlazedockReplaceRules`, `collectReplacements`,
`isBlazedockReplace`).

Modelling choices:
* go.mod / go.work files are represented structurally: a manifest is its
  module path plus its list of replace entries; a replace entry carries its
  key `(oldPath, oldVersion)`, its target `(newPath, newVersion)`, the list
  of trailing suffix-comment tokens of its line, and the in-block flag.
  The external manifest adapter (`golang.org/x/mod/modfile`) serializes
  deterministically, so two manifests are byte-identical if and only if
  they are structurally identical; parse and format are modelled as the
  identity on this structural representation.
* The adapter operations are modelled from the library contract:
  `DropReplace old` removes every replace entry whose key is exactly `old`;
  `AddReplace` appends a fresh entry when no entry with the same exact key
  exists, and otherwise updates the first such entry in place (keeping its
  comments); `Cleanup`, `SortBlocks` and `Format` are deterministic layout
  normalizations modelled as the identity on the structure.
* The file system is a finite association from package names to files; a
  file is either a parseable manifest or unreadable/unparseable (`bad`).
  Operations return the error outcome together with the final disk state,
  so that partially committed writes are observable.
* `Workspace` and `Package` come from the repository's model package which
  only supplies data here: a package has a full name, a kind, an origin
  directory, a flag telling whether a `go.mod` is among its sources, and
  its externally computed transitive dependency list.
-/

/-- `strings.Contains`: check whether `pat` occurs in `s`, character-list based. -/
def listHasPre : List Char → List Char → Bool
  | _, [] => true
  | [], _ :: _ => false
  | a :: as, b :: bs => a == b && listHasPre as bs

/-- Substring occurrence on character lists. -/
def listHasSub : List Char → List Char → Bool
  | [], pat => pat.isEmpty
  | s :: rest, pat => listHasPre (s :: rest) pat || listHasSub rest pat

/-- `strings.Contains(s, pat)`. -/
def strContains (s pat : String) : Bool :=
  listHasSub s.toList pat.toList

/-- `strings.TrimPrefix(s, pre)`: drop `pre` when `s` starts with it. -/
def trimPfx (s pre : String) : String :=
  if listHasPre s.toList pre.toList then ⟨s.toList.drop pre.toList.length⟩ else s

/-- Lexicographic code-point comparison of character lists (the order Go
uses on strings; on valid UTF-8, bytewise and code-point order agree). -/
def charListLe : List Char → List Char → Bool
  | [], _ => true
  | _ :: _, [] => false
  | a :: as, b :: bs =>
    if a.toNat < b.toNat then true
    else if b.toNat < a.toNat then false
    else charListLe as bs

/-- Go string comparison `a <= b`. -/
def strLe (a b : String) : Bool :=
  charListLe a.toList b.toList

/-- `blazedockReplaceType` of the source: direct, indirect, ignore. -/
inductive BdType
  | direct
  | indirect
  | ignore
deriving DecidableEq

/-- Core of `isBlazedockReplace`: scan the suffix-comment tokens of a line.
The first token containing "blazedock" marks the entry owned; its sub-kind
is indirect when the token contains " indirect ", ignore when it contains
" ignore ", direct otherwise. -/
def isBdToks : List String → Bool × BdType
  | [] => (false, .direct)
  | c :: rest =>
    if strContains c "blazedock" then
      (true,
        if strContains c " indirect " then .indirect
        else if strContains c " ignore " then .ignore
        else .direct)
    else isBdToks rest

/-- `isBlazedockReplace(rep *modfile.Line)`: a nil line is (false, ignore);
otherwise scan the line's suffix comments. -/
def isBlazedockReplace : Option (List String) → Bool × BdType
  | none => (false, BdType.ignore)
  | some toks => isBdToks toks

/-- Decidable equality of fallible results, for concrete evaluation. -/
instance {ε α : Type} [DecidableEq ε] [DecidableEq α] : DecidableEq (Except ε α) := fun x y =>
  match x, y with
  | .ok a, .ok b =>
    if h : a = b then isTrue (by rw [h]) else isFalse (by intro he; cases he; exact h rfl)
  | .error a, .error b =>
    if h : a = b then isTrue (by rw [h]) else isFalse (by intro he; cases he; exact h rfl)
  | .ok _, .error _ => isFalse (by intro he; cases he)
  | .error _, .ok _ => isFalse (by intro he; cases he)

/-- `module.Version`: a (path, version) pair; replace-entry keys and targets. -/
structure ModVersion where
  path : String
  version : String
deriving DecidableEq

/-- One replace directive of a go.mod file: key, target, trailing
suffix-comment tokens of its line, and the in-block flag. -/
structure Replace where
  old : ModVersion
  new : ModVersion
  suffix : List String
  inBlock : Bool
deriving DecidableEq

/-- A parsed go.mod file: its module path and its replace directives.
Directives the engine never touches are not represented. -/
structure GoMod where
  modulePath : String
  replace : List Replace
deriving DecidableEq

/-- Ownership of an entry, from its line's suffix comments. -/
def entOwned (r : Replace) : Bool :=
  (isBlazedockReplace (some r.suffix)).1

/-- Sub-kind of an entry, from its line's suffix comments. -/
def entTpe (r : Replace) : BdType :=
  (isBlazedockReplace (some r.suffix)).2

/-- Entries the teardown loop removes: owned and not of the ignore kind. -/
def entRemovable (r : Replace) : Bool :=
  entOwned r && !(entTpe r == BdType.ignore)

/-- The foreign entries of a manifest, in manifest order. -/
def foreignEntries (g : GoMod) : List Replace :=
  g.replace.filter fun r => !entOwned r

/-- The keys of a manifest's replace entries. -/
def keysOf (g : GoMod) : List ModVersion :=
  g.replace.map (·.old)

/-- The spec invariant: at most one replace entry per key. -/
def KeysNodup (g : GoMod) : Prop :=
  (keysOf g).Nodup

instance (g : GoMod) : Decidable (KeysNodup g) := by
  unfold KeysNodup; infer_instance

/-- Adapter `File.DropReplace(oldPath, oldVers)`: removes every replace
entry with exactly that key. -/
def GoMod.dropReplace (f : GoMod) (oldPath oldVers : String) : GoMod :=
  { f with replace :=
      f.replace.filter fun r =>
        !(r.old.path == oldPath && r.old.version == oldVers) }

/-- Adapter `File.AddReplace(oldPath, oldVers, newPath, newVers)`: when an
entry with the same exact key exists it is updated in place (comments
kept), otherwise a fresh entry with no comment is appended. -/
def GoMod.addReplaceLib (f : GoMod) (oldPath oldVers newPath newVers : String) : GoMod :=
  if f.replace.any (fun r => r.old.path == oldPath && r.old.version == oldVers) then
    { f with replace :=
        f.replace.map fun r =>
          if r.old.path == oldPath && r.old.version == oldVers then
            { r with new := ⟨newPath, newVers⟩ }
          else r }
  else
    { f with replace :=
        f.replace ++ [⟨⟨oldPath, oldVers⟩, ⟨newPath, newVers⟩, [], false⟩] }

/-- The guard loop of the linker's `addReplace`: iterate over the snapshot
of the entry list; an entry with the same key that is owned and not of the
ignore kind is dropped; any other entry with the same key makes the whole
call fail ("replacement exists already, but was not added by blazedock"). -/
def addReplaceLoop (g : GoMod) (old : ModVersion) : List Replace → Except String GoMod
  | [] => .ok g
  | rep :: rest =>
    if rep.old = old then
      if entRemovable rep then
        addReplaceLoop (g.dropReplace old.path old.version) old rest
      else
        .error ("replacement for " ++ old.path ++ " exists already, but was not added by blazedock")
    else
      addReplaceLoop g old rest

/-- The comment token the linker attaches to an entry it adds. -/
def bdComment (direct : Bool) (source : String) : String :=
  if direct then "// blazedock" else "// blazedock" ++ " indirect from " ++ source

/-- The linker's `addReplace(gomod, old, new, direct, source)`: guard loop
over the current entries, adapter `AddReplace`, then annotate every entry
with the key with the ownership comment and put it in the block. -/
def addReplaceFinish (g : GoMod) (old new : ModVersion) (direct : Bool) (source : String) :
    GoMod :=
  let g := g.addReplaceLib old.path old.version new.path new.version
  { g with replace :=
      g.replace.map fun r =>
        if r.old = old then { r with suffix := [bdComment direct source], inBlock := true }
        else r }

def addReplace (gomod : GoMod) (old new : ModVersion) (direct : Bool) (source : String) :
    Except String GoMod :=
  (addReplaceLoop gomod old gomod.replace).map fun g => addReplaceFinish g old new direct source

/-- The teardown loop of `removeBlazedockReplaceRules`: iterate over the
snapshot of the entry list; every owned entry that is not of the ignore
kind has its key dropped from the manifest. -/
def removeOwnedLoop (g : GoMod) : List Replace → GoMod
  | [] => g
  | rep :: rest =>
    if entRemovable rep then
      removeOwnedLoop (g.dropReplace rep.old.path rep.old.version) rest
    else removeOwnedLoop g rest

/-- The manifest transformation performed by `removeBlazedockReplaceRules`. -/
def removeBdRules (g : GoMod) : GoMod :=
  removeOwnedLoop g g.replace

-- sanity checks (not claim theorems)
example : strContains "// blazedock indirect from comp:pkg" "blazedock" = true := by decide
example : isBdToks ["// blazedock"] = (true, .direct) := by decide
example : isBdToks ["// blazedock indirect from a:b"] = (true, .indirect) := by decide
example : isBdToks ["// blazedock ignore "] = (true, .ignore) := by decide
example : isBdToks ["// indirect "] = (false, .direct) := by decide
example : isBlazedockReplace none = (false, .ignore) := by decide

/-! ## Workspace model and file store -/

/-- Package kind discriminator; only Go (module-based) packages matter. -/
inductive PkgType
  | go
  | other
deriving DecidableEq

/-- A reference to a dependency as returned by
`GetTransitiveDependencies()`: its full name and kind. -/
structure DepRef where
  name : String
  typ : PkgType
deriving DecidableEq

/-- Modelled from the spec: `Package` of the repository's workspace model
(not under src/): workspace-unique full name, kind discriminator, origin
directory, whether a `go.mod` is among its declared sources, and the
externally computed transitive dependency set. -/
structure Package where
  name : String
  typ : PkgType
  origin : String
  hasGoMod : Bool
  transDeps : List DepRef
deriving DecidableEq

/-- Modelled from the spec: `Workspace` of the repository's workspace model
(not under src/): origin directory and its packages. `Workspace.Packages`
is a map keyed by the packages' full names; it is modelled as a list whose
names are unique. -/
structure Workspace where
  origin : String
  packages : List Package
deriving DecidableEq

/-- A file on disk: either a parseable manifest or unreadable/unparseable. -/
inductive DiskFile
  | good (g : GoMod)
  | bad
deriving DecidableEq

/-- The per-package manifest store: package full name to file. -/
abbrev Disk := List (String × DiskFile)

/-- Look up a package's manifest file. -/
def diskGet : Disk → String → Option DiskFile
  | [], _ => none
  | (m, f) :: rest, n => if m = n then some f else diskGet rest n

/-- Write a package's manifest file. -/
def diskSet : Disk → String → DiskFile → Disk
  | [], n, f => [(n, f)]
  | (m, g) :: rest, n, f =>
    if m = n then (n, f) :: rest else (m, g) :: diskSet rest n f

/-- `modifyGoMod(dst, mod)`: locate the go.mod among the sources (error if
none), read and parse it (error if that fails, nothing written), apply the
mutation (error aborts before the write), then clean, format and write.
Returns the outcome together with the resulting disk. -/
def modifyGoMod (d : Disk) (dst : Package) (mf : GoMod → Except String GoMod) :
    Except String Unit × Disk :=
  if !dst.hasGoMod then (.error "go.mod not found", d)
  else
    match diskGet d dst.name with
    | some (.good g) =>
      match mf g with
      | .error e => (.error e, d)
      | .ok g' => (.ok (), diskSet d dst.name (.good g'))
    | _ => (.error "cannot read or parse go.mod", d)

/-- `removeBlazedockReplaceRules(dst)`: drop every owned non-ignore entry,
then rewrite the file. The teardown callback itself never fails. -/
def removeBlazedockReplaceRules (d : Disk) (dst : Package) : Except String Unit × Disk :=
  modifyGoMod d dst fun g => .ok (removeBdRules g)

/-- `goModule` of the source: registry entry of one collected package. -/
structure GoModuleR where
  Name : String
  OriginPath : String
  OriginPackage : String
  Replacements : List Replace
deriving DecidableEq

/-- `filepath.Rel(base, target)`: the path of `target` relative to `base`.
Modelled as the deterministic standard-library path computation; its exact
value never matters to the claims, only its determinism. -/
def filepathRel (base target : String) : String :=
  if listHasPre target.toList (base.toList ++ ['/']) then
    ⟨target.toList.drop (base.toList.length + 1)⟩
  else if base = target then "."
  else target

/-- One pending `addReplace` call of `linkGoModule`. -/
structure AddOp where
  old : ModVersion
  new : ModVersion
  direct : Bool
  source : String
deriving DecidableEq

/-- Apply a sequence of `addReplace` calls, stopping at the first error. -/
def applyAdds (g : GoMod) : List AddOp → Except String GoMod
  | [] => .ok g
  | op :: rest =>
    match addReplace g op.old op.new op.direct op.source with
    | .error e => .error e
    | .ok g' => applyAdds g' rest

/-- The `addReplace` calls issued by `linkGoModule`'s mutation callback, in
order: first one direct entry per collected dependency (module path mapped
to the dependency's origin relative to the target's go.mod directory),
then, per dependency, its stored foreign overrides replayed as indirect
entries. The two source loops are this list folded left to right. -/
def linkAddOps (dstOrigin : String) (mods : List GoModuleR) : List AddOp :=
  (mods.map fun m =>
    ⟨⟨m.Name, ""⟩, ⟨filepathRel dstOrigin m.OriginPath, ""⟩, true, m.OriginPackage⟩) ++
  (mods.flatMap fun m => m.Replacements.map fun r => ⟨r.old, r.new, false, m.OriginPackage⟩)

/-- `linkGoModule(dst, mods)`: first tear down all owned non-ignore entries
(a committed read-modify-write), then re-read and apply the add sequence;
an error in the add phase aborts before that second write. -/
def linkGoModule (d : Disk) (dst : Package) (mods : List GoModuleR) :
    Except String Unit × Disk :=
  match removeBlazedockReplaceRules d dst with
  | (.error e, d') => (.error e, d')
  | (.ok _, d') => modifyGoMod d' dst fun g => applyAdds g (linkAddOps dst.origin mods)

/-- `collectReplacements(workspace)`: for every Go package with a go.mod
among its sources, read and parse it (any failure aborts the whole
collection with no registry) and record its module path, origin directory,
package name and its foreign replace entries. -/
def collectReplacements (d : Disk) : List Package → Except String (List (String × GoModuleR))
  | [] => .ok []
  | p :: rest =>
    if p.typ != PkgType.go then collectReplacements d rest
    else if !p.hasGoMod then collectReplacements d rest
    else
      match diskGet d p.name with
      | some (.good g) =>
        match collectReplacements d rest with
        | .error e => .error e
        | .ok ms =>
          .ok ((p.name, ⟨g.modulePath, p.origin, p.name,
                g.replace.filter fun r => !entOwned r⟩) :: ms)
      | _ => .error "cannot read or parse go.mod"

/-- Registry lookup `mods[name]`. -/
def lookupMods : List (String × GoModuleR) → String → Option GoModuleR
  | [], _ => none
  | (n, m) :: rest, k => if n = k then some m else lookupMods rest k

/-- Insertion of a registry entry into a sorted-by-`Name` list. -/
def insByName (m : GoModuleR) : List GoModuleR → List GoModuleR
  | [] => [m]
  | x :: xs => if strLe m.Name x.Name then m :: x :: xs else x :: insByName m xs

/-- `sort.Slice(apmods, by Name ascending)`: deterministic sort of the
resolved dependencies by module identity. -/
def sortByName : List GoModuleR → List GoModuleR
  | [] => []
  | x :: xs => insByName x (sortByName xs)

/-- The resolved dependency list of a target: its transitive Go
dependencies that have a registry entry, sorted by module identity. -/
def resolvedMods (mods : List (String × GoModuleR)) (p : Package) : List GoModuleR :=
  sortByName (p.transDeps.filterMap fun dep =>
    if dep.typ != PkgType.go then none else lookupMods mods dep.name)

/-- The target filter of `LinkGoModules`: skip a package when a target is
given and the package is not it. -/
def skipTarget (target : Option Package) (p : Package) : Bool :=
  match target with
  | some t => p.name != t.name
  | none => false

/-- The per-package loop of `LinkGoModules`: link every Go package (or only
the target when one is given); a missing registry entry for a dependency is
skipped with a warning; any link failure aborts the loop. -/
def linkAll (d : Disk) (mods : List (String × GoModuleR)) (target : Option Package) :
    List Package → Except String Unit × Disk
  | [] => (.ok (), d)
  | p :: rest =>
    if p.typ != PkgType.go then linkAll d mods target rest
    else if skipTarget target p then
      linkAll d mods target rest
    else
      match linkGoModule d p (resolvedMods mods p) with
      | (.error e, d') => (.error e, d')
      | (.ok _, d') => linkAll d' mods target rest

/-- `LinkGoModules(workspace, target)`: snapshot the registry, then link
each (or the one) Go package against it. -/
def LinkGoModules (d : Disk) (ws : Workspace) (target : Option Package) :
    Except String Unit × Disk :=
  match collectReplacements d ws.packages with
  | .error e => (.error e, d)
  | .ok mods => linkAll d mods target ws.packages

-- sanity checks (not claim theorems)
example :
    addReplace ⟨"m", []⟩ ⟨"a", ""⟩ ⟨"../a", ""⟩ true "c:a" =
      .ok ⟨"m", [⟨⟨"a", ""⟩, ⟨"../a", ""⟩, ["// blazedock"], true⟩]⟩ := by decide
example :
    (addReplace ⟨"m", [⟨⟨"a", ""⟩, ⟨"x", ""⟩, ["// by hand"], false⟩]⟩
      ⟨"a", ""⟩ ⟨"../a", ""⟩ true "c:a").isOk = false := by decide

/-! ## Workspace manifest (go.work) and the Workspace Synchronizer -/

/-- One `use` directive of a go.work file: member path, trailing
suffix-comment tokens of its line, and the in-block flag. -/
structure UseEntry where
  path : String
  suffix : List String
  inBlock : Bool
deriving DecidableEq

/-- A parsed go.work file: its use directives. -/
structure WorkFile where
  use : List UseEntry
deriving DecidableEq

/-- Ownership of a use directive, from its line's suffix comments. -/
def useOwned (u : UseEntry) : Bool :=
  (isBlazedockReplace (some u.suffix)).1

/-- Adapter `WorkFile.DropUse(path)`: removes every use entry with that path. -/
def WorkFile.dropUse (wf : WorkFile) (p : String) : WorkFile :=
  ⟨wf.use.filter fun u => !(u.path == p)⟩

/-- The first loop of `LinkGoWorkspace`: iterate over the snapshot of the
use list and drop the path of every entry the engine owns. -/
def dropOwnedUsesLoop (wf : WorkFile) : List UseEntry → WorkFile
  | [] => wf
  | u :: rest =>
    if useOwned u then
      dropOwnedUsesLoop (wf.dropUse u.path) rest
    else dropOwnedUsesLoop wf rest

/-- The origin directory of a package relative to the workspace root, as
computed by `LinkGoWorkspace`: strip the workspace origin, then a leading
slash. -/
def relDir (wsOrigin : String) (p : Package) : String :=
  trimPfx (trimPfx p.origin wsOrigin) "/"

/-- Insertion into a sorted string list. -/
def insStr (x : String) : List String → List String
  | [] => [x]
  | y :: ys => if strLe x y then x :: y :: ys else y :: insStr x ys

/-- `sort.Strings`: deterministic ascending sort. -/
def sortStrings : List String → List String
  | [] => []
  | x :: xs => insStr x (sortStrings xs)

/-- The member set `goModules` of `LinkGoWorkspace`: the relative origin
directories of the Go packages, as a duplicate-free list. -/
def goDirs (ws : Workspace) : List String :=
  ((ws.packages.filter fun p => p.typ == PkgType.go).map (relDir ws.origin)).dedup

/-- The sorted member paths added to the workspace manifest. -/
def sortedGoDirs (ws : Workspace) : List String :=
  sortStrings (goDirs ws)

/-- The go.work transformation of `LinkGoWorkspace`: drop every owned use
entry, append one fresh use entry per sorted member directory, then
annotate every use entry whose path is a member directory with the
ownership comment and group it into the block; the adapter then re-sorts
blocks and cleans deterministically (modelled as the identity). -/
def linkWorkFile (ws : Workspace) (wf : WorkFile) : WorkFile :=
  let wf1 := dropOwnedUsesLoop wf wf.use
  let wf2 : WorkFile := ⟨wf1.use ++ (sortedGoDirs ws).map fun p => ⟨p, [], false⟩⟩
  ⟨wf2.use.map fun u =>
    if (goDirs ws).contains u.path then
      { u with suffix := ["// blazedock"], inBlock := true }
    else u⟩

/-- The final loop of `LinkGoWorkspace`: per-package teardown of owned
go.mod entries across all Go packages; the first failure aborts. -/
def teardownAll (d : Disk) : List Package → Except String Unit × Disk
  | [] => (.ok (), d)
  | p :: rest =>
    if p.typ != PkgType.go then teardownAll d rest
    else
      match removeBlazedockReplaceRules d p with
      | (.error e, d') => (.error e, d')
      | (.ok _, d') => teardownAll d' rest

/-- The mutable state `LinkGoWorkspace` operates on: the workspace manifest
(absent when `go.work` does not exist at the workspace root) and the
per-package manifest store. -/
structure WsState where
  work : Option WorkFile
  disk : Disk
deriving DecidableEq

/-- `LinkGoWorkspace(workspace)`: fail (touching nothing) when `go.work`
does not exist; otherwise rewrite the workspace manifest membership and
then strip owned replace entries from every Go package's go.mod. -/
def LinkGoWorkspace (st : WsState) (ws : Workspace) : Except String Unit × WsState :=
  match st.work with
  | none => (.error "not a Go workspace", st)
  | some wf =>
    let wf' := linkWorkFile ws wf
    match teardownAll st.disk ws.packages with
    | (.error e, d') => (.error e, ⟨some wf', d'⟩)
    | (.ok _, d') => (.ok (), ⟨some wf', d'⟩)

-- sanity checks (not claim theorems)
example :
    linkWorkFile ⟨"/w", [⟨"a", .go, "/w/a", true, []⟩]⟩
        ⟨[⟨"old", ["// blazedock"], true⟩, ⟨"keep", ["// mine"], false⟩]⟩ =
      ⟨[⟨"keep", ["// mine"], false⟩, ⟨"a", ["// blazedock"], true⟩]⟩ := by decide
example :
    (LinkGoWorkspace ⟨none, [("p", .good ⟨"m", []⟩)]⟩ ⟨"/w", []⟩).2 =
      ⟨none, [("p", .good ⟨"m", []⟩)]⟩ := by decide

/-! ## Classifier lemmas -/

theorem listHasPre_append (x y p : List Char) (h : listHasPre x p = true) :
    listHasPre (x ++ y) p = true := by
  induction x generalizing p with
  | nil =>
    cases p with
    | nil => simp [listHasPre]
    | cons b bs => simp [listHasPre] at h
  | cons a as ih =>
    cases p with
    | nil => simp [listHasPre]
    | cons b bs =>
      simp only [listHasPre, Bool.and_eq_true] at h ⊢
      exact ⟨h.1, ih bs h.2⟩

theorem listHasSub_append_left (x y p : List Char) (h : listHasSub x p = true) :
    listHasSub (x ++ y) p = true := by
  induction x with
  | nil =>
    simp [listHasSub, List.isEmpty_iff] at h
    subst h
    cases y with
    | nil => simp [listHasSub]
    | cons c cs => simp [listHasSub, listHasPre]
  | cons a as ih =>
    simp only [listHasSub, Bool.or_eq_true] at h
    rcases h with h | h
    · simp only [List.cons_append, listHasSub, Bool.or_eq_true]
      exact Or.inl (listHasPre_append _ _ _ h)
    · simp only [List.cons_append, listHasSub, Bool.or_eq_true]
      exact Or.inr (ih h)

theorem strContains_append_left (a b pat : String)
    (h : strContains a pat = true) : strContains (a ++ b) pat = true := by
  unfold strContains at h ⊢
  rw [show (a ++ b).toList = a.toList ++ b.toList from String.data_append a b]
  exact listHasSub_append_left _ _ _ h

theorem bdComment_true_eq (source : String) : bdComment true source = "// blazedock" := rfl

theorem bdComment_has_blazedock (direct : Bool) (source : String) :
    strContains (bdComment direct source) "blazedock" = true := by
  cases direct with
  | true => rw [bdComment_true_eq]; decide
  | false =>
    show strContains ("// blazedock" ++ (" indirect from " ++ source)) "blazedock" = true
    exact strContains_append_left _ _ _ (by decide)

theorem bdComment_indirect_tok (source : String) :
    strContains (bdComment false source) " indirect " = true := by
  show strContains ("// blazedock" ++ (" indirect from " ++ source)) " indirect " = true
  rw [← String.append_assoc]
  exact strContains_append_left _ _ _ (by decide)

/-- The manifest entry `addReplace` leaves behind for a pending operation. -/
def addedEntry (op : AddOp) : Replace :=
  ⟨op.old, op.new, [bdComment op.direct op.source], true⟩

theorem entOwned_addedEntry (op : AddOp) : entOwned (addedEntry op) = true := by
  unfold entOwned addedEntry isBlazedockReplace isBdToks
  simp [bdComment_has_blazedock]

theorem entTpe_addedEntry_direct (op : AddOp) (h : op.direct = true) :
    entTpe (addedEntry op) = BdType.direct := by
  unfold entTpe addedEntry isBlazedockReplace isBdToks
  rw [h, bdComment_true_eq]
  decide

theorem entTpe_addedEntry_indirect (op : AddOp) (h : op.direct = false) :
    entTpe (addedEntry op) = BdType.indirect := by
  unfold entTpe addedEntry isBlazedockReplace isBdToks
  rw [h]
  simp [bdComment_has_blazedock, bdComment_indirect_tok]

theorem entRemovable_addedEntry (op : AddOp) : entRemovable (addedEntry op) = true := by
  unfold entRemovable
  rw [entOwned_addedEntry]
  cases h : op.direct with
  | true => rw [entTpe_addedEntry_direct op h]; decide
  | false => rw [entTpe_addedEntry_indirect op h]; decide

theorem entRemovable_of_foreign (r : Replace) (h : entOwned r = false) :
    entRemovable r = false := by
  unfold entRemovable
  rw [h]
  rfl

theorem entOwned_of_removable (r : Replace) (h : entRemovable r = true) :
    entOwned r = true := by
  unfold entRemovable at h
  exact (Bool.and_eq_true _ _ |>.mp h).1

/-! ## addReplace characterization -/

theorem modv_beq (a b : ModVersion) :
    (a.path == b.path && a.version == b.version) = (a == b) := by
  by_cases h : a = b
  · subst h
    simp
  · have h2 : (a == b) = false := beq_eq_false_iff_ne.mpr h
    rw [h2]
    rcases a with ⟨ap, av⟩
    rcases b with ⟨bp, bv⟩
    by_cases h1 : ap = bp
    · subst h1
      have hv : ¬ av = bv := fun hh => h (by rw [hh])
      simp [beq_eq_false_iff_ne.mpr hv]
    · simp [beq_eq_false_iff_ne.mpr h1]

theorem dropReplace_eq (g : GoMod) (old : ModVersion) :
    g.dropReplace old.path old.version =
      ⟨g.modulePath, g.replace.filter fun r => !(r.old == old)⟩ := by
  unfold GoMod.dropReplace
  congr 1
  apply List.filter_congr
  intro r _
  rw [modv_beq]

theorem dropReplace_idem (g : GoMod) (p v : String) :
    (g.dropReplace p v).dropReplace p v = g.dropReplace p v := by
  unfold GoMod.dropReplace
  simp [List.filter_filter]

/-- The success condition of the linker's `addReplace`: every entry already
carrying the key is engine-owned and not of the ignore kind. -/
def CanAdd (g : GoMod) (old : ModVersion) : Prop :=
  ∀ r ∈ g.replace, r.old = old → entRemovable r = true

instance (g : GoMod) (old : ModVersion) : Decidable (CanAdd g old) := by
  unfold CanAdd; infer_instance

/-- The manifest produced by a successful `addReplace` for one operation. -/
def applyAdd1 (g : GoMod) (op : AddOp) : GoMod :=
  ⟨g.modulePath, (g.replace.filter fun r => !(r.old == op.old)) ++ [addedEntry op]⟩

theorem addReplaceLoop_ok (old : ModVersion) (l : List Replace) :
    ∀ g : GoMod, (∀ r ∈ l, r.old = old → entRemovable r = true) →
      addReplaceLoop g old l =
        .ok (if l.any (fun r => r.old == old) then
              g.dropReplace old.path old.version else g) := by
  induction l with
  | nil => intro g h; simp [addReplaceLoop]
  | cons rep rest ih =>
    intro g h
    by_cases hk : rep.old = old
    · have hrem : entRemovable rep = true := h rep (by simp) hk
      rw [addReplaceLoop, if_pos hk, if_pos hrem,
        ih _ (fun r hr hko => h r (List.mem_cons_of_mem _ hr) hko)]
      have hany : (rep :: rest).any (fun r => r.old == old) = true := by
        simp [List.any_cons, hk]
      rw [hany]
      by_cases h2 : rest.any (fun r => r.old == old) = true
      · rw [h2]
        simp [dropReplace_idem]
      · rw [Bool.not_eq_true] at h2
        rw [h2]
        simp
    · rw [addReplaceLoop, if_neg hk,
        ih _ (fun r hr hko => h r (List.mem_cons_of_mem _ hr) hko)]
      have : ((rep :: rest).any fun r => r.old == old) = (rest.any fun r => r.old == old) := by
        simp [List.any_cons, hk]
      rw [this]

theorem addReplaceLoop_err (old : ModVersion) (l : List Replace) :
    ∀ g : GoMod, (∃ r ∈ l, r.old = old ∧ entRemovable r = false) →
      ∃ e, addReplaceLoop g old l = .error e := by
  induction l with
  | nil => intro g h; simp at h
  | cons rep rest ih =>
    intro g h
    obtain ⟨r, hr, hko, hrem⟩ := h
    by_cases hk : rep.old = old
    · by_cases hrep : entRemovable rep = true
      · have hrrest : r ∈ rest := by
          rcases List.mem_cons.mp hr with h1 | h1
          · subst h1; rw [hrep] at hrem; cases hrem
          · exact h1
        rw [addReplaceLoop, if_pos hk, if_pos hrep]
        exact ih _ ⟨r, hrrest, hko, hrem⟩
      · rw [addReplaceLoop, if_pos hk, if_neg hrep]
        exact ⟨_, rfl⟩
    · have hrrest : r ∈ rest := by
        rcases List.mem_cons.mp hr with h1 | h1
        · subst h1; exact absurd hko hk
        · exact h1
      rw [addReplaceLoop, if_neg hk]
      exact ih _ ⟨r, hrrest, hko, hrem⟩

theorem filtered_not_any (l : List Replace) (old : ModVersion) :
    ((l.filter fun r => !(r.old == old)).any fun r =>
      r.old.path == old.path && r.old.version == old.version) = false := by
  have : (fun r : Replace => r.old.path == old.path && r.old.version == old.version) =
      fun r : Replace => r.old == old := funext fun r => modv_beq r.old old
  rw [this]
  rw [Bool.eq_false_iff]
  intro hs
  obtain ⟨r, hr, hb⟩ := List.any_eq_true.mp hs
  have := (List.mem_filter.mp hr).2
  rw [hb] at this
  cases this

theorem map_mark_filtered (l : List Replace) (old : ModVersion) (c : String) :
    (l.filter fun r => !(r.old == old)).map
      (fun r => if r.old = old then { r with suffix := [c], inBlock := true } else r) =
      l.filter fun r => !(r.old == old) := by
  have h : ∀ r ∈ l.filter (fun r => !(r.old == old)),
      (if r.old = old then { r with suffix := [c], inBlock := true } else r) = r := by
    intro r hr
    have := (List.mem_filter.mp hr).2
    rw [if_neg]
    intro hko
    rw [hko] at this
    simp at this
  calc (l.filter fun r => !(r.old == old)).map
        (fun r => if r.old = old then { r with suffix := [c], inBlock := true } else r) =
      (l.filter fun r => !(r.old == old)).map id := List.map_congr_left h
    _ = l.filter fun r => !(r.old == old) := List.map_id _

theorem addReplaceFinish_filtered (g : GoMod) (op : AddOp) :
    addReplaceFinish ⟨g.modulePath, g.replace.filter fun r => !(r.old == op.old)⟩
        op.old op.new op.direct op.source = applyAdd1 g op := by
  unfold addReplaceFinish GoMod.addReplaceLib
  rw [if_neg (by rw [filtered_not_any]; simp)]
  unfold applyAdd1
  simp only
  congr 1
  rw [List.map_append, map_mark_filtered]
  congr 1
  simp [addedEntry]

theorem addReplace_ok (g : GoMod) (op : AddOp) (h : CanAdd g op.old) :
    addReplace g op.old op.new op.direct op.source = .ok (applyAdd1 g op) := by
  unfold addReplace
  rw [addReplaceLoop_ok op.old g.replace g h]
  have hfilter :
      (if g.replace.any (fun r => r.old == op.old) then
          g.dropReplace op.old.path op.old.version else g) =
        ⟨g.modulePath, g.replace.filter fun r => !(r.old == op.old)⟩ := by
    by_cases hany : g.replace.any (fun r => r.old == op.old) = true
    · rw [if_pos hany, dropReplace_eq]
    · rw [Bool.not_eq_true] at hany
      rw [hany]
      simp only [Bool.false_eq_true, if_false]
      have hself : g.replace.filter (fun r => !(r.old == op.old)) = g.replace := by
        apply List.filter_eq_self.mpr
        intro r hr
        have hb : (r.old == op.old) = false := by
          by_contra hcon
          rw [Bool.not_eq_false] at hcon
          have : (g.replace.any fun r => r.old == op.old) = true :=
            List.any_eq_true.mpr ⟨r, hr, hcon⟩
          rw [this] at hany
          cases hany
        simp [hb]
      rw [hself]
  rw [hfilter]
  rw [show ∀ (x : GoMod) (f : GoMod → GoMod), (Except.ok (ε := String) x).map f = .ok (f x)
    from fun _ _ => rfl]
  rw [addReplaceFinish_filtered]

theorem addReplace_err (g : GoMod) (op : AddOp) (h : ¬ CanAdd g op.old) :
    ∃ e, addReplace g op.old op.new op.direct op.source = .error e := by
  unfold CanAdd at h
  push_neg at h
  obtain ⟨r, hr, hko, hrem⟩ := h
  have hrem2 : entRemovable r = false := by
    cases hb : entRemovable r with
    | false => rfl
    | true => exact absurd hb hrem
  obtain ⟨e, he⟩ := addReplaceLoop_err op.old g.replace g ⟨r, hr, hko, hrem2⟩
  refine ⟨e, ?_⟩
  unfold addReplace
  rw [he]
  rfl

theorem addReplace_ok_inv (g g' : GoMod) (op : AddOp)
    (h : addReplace g op.old op.new op.direct op.source = .ok g') :
    CanAdd g op.old ∧ g' = applyAdd1 g op := by
  by_cases hc : CanAdd g op.old
  · rw [addReplace_ok g op hc] at h
    exact ⟨hc, (Except.ok.injEq _ _ |>.mp h).symm⟩
  · obtain ⟨e, he⟩ := addReplace_err g op hc
    rw [he] at h
    cases h

/-! ## Teardown characterization -/

theorem removeOwnedLoop_eq (l : List Replace) :
    ∀ g : GoMod, removeOwnedLoop g l =
      ⟨g.modulePath, g.replace.filter fun r =>
        !(l.any fun e => entRemovable e && e.old == r.old)⟩ := by
  induction l with
  | nil =>
    intro g
    show g = ⟨g.modulePath,
      g.replace.filter fun r => !(List.any [] fun e => entRemovable e && e.old == r.old)⟩
    simp
  | cons rep rest ih =>
    intro g
    by_cases hrem : entRemovable rep = true
    · rw [removeOwnedLoop, if_pos hrem, ih,
        show g.dropReplace rep.old.path rep.old.version =
          ⟨g.modulePath, g.replace.filter fun r => !(r.old == rep.old)⟩ from
            dropReplace_eq g rep.old]
      simp only [List.filter_filter]
      congr 1
      apply List.filter_congr
      intro r _
      have hBC : (r.old == rep.old) = (rep.old == r.old) := by
        rw [Bool.eq_iff_iff, beq_iff_eq, beq_iff_eq]
        exact eq_comm
      simp [List.any_cons, hrem, hBC, Bool.not_or, Bool.and_comm]
    · have hrem2 : entRemovable rep = false := by
        cases hb : entRemovable rep with
        | false => rfl
        | true => exact absurd hb hrem
      rw [removeOwnedLoop, if_neg hrem, ih]
      congr 1
      apply List.filter_congr
      intro r _
      simp [List.any_cons, hrem2]

theorem keys_inj (g : GoMod) (h : KeysNodup g) {a b : Replace}
    (ha : a ∈ g.replace) (hb : b ∈ g.replace) (hk : a.old = b.old) : a = b :=
  List.inj_on_of_nodup_map h ha hb hk

/-- The entries teardown keeps: foreign and owned-ignore ones. -/
def keptEntries (g : GoMod) : List Replace :=
  g.replace.filter fun r => !entRemovable r

theorem removeBdRules_eq (g : GoMod) (h : KeysNodup g) :
    removeBdRules g = ⟨g.modulePath, keptEntries g⟩ := by
  unfold removeBdRules keptEntries
  rw [removeOwnedLoop_eq]
  congr 1
  apply List.filter_congr
  intro r hr
  congr 1
  rw [Bool.eq_iff_iff]
  constructor
  · intro hs
    obtain ⟨e, he, hbe⟩ := List.any_eq_true.mp hs
    obtain ⟨hrem, hko⟩ := Bool.and_eq_true _ _ |>.mp hbe
    have : e = r := keys_inj g h he hr (beq_iff_eq.mp hko)
    exact this ▸ hrem
  · intro hrem
    exact List.any_eq_true.mpr ⟨r, hr, by rw [hrem]; simp⟩

theorem removeBdRules_no_removable (g : GoMod) :
    ∀ r ∈ (removeBdRules g).replace, entRemovable r = false := by
  unfold removeBdRules
  rw [removeOwnedLoop_eq]
  intro r hr
  obtain ⟨hmem, hpred⟩ := List.mem_filter.mp hr
  by_contra hcon
  rw [Bool.not_eq_false] at hcon
  have : (g.replace.any fun e => entRemovable e && e.old == r.old) = true :=
    List.any_eq_true.mpr ⟨r, hmem, by rw [hcon]; simp⟩
  rw [this] at hpred
  cases hpred

theorem removeBdRules_id (g : GoMod) (h : ∀ r ∈ g.replace, entRemovable r = false) :
    removeBdRules g = g := by
  unfold removeBdRules
  rw [removeOwnedLoop_eq]
  have hf : (g.replace.filter fun r =>
      !(g.replace.any fun e => entRemovable e && e.old == r.old)) = g.replace := by
    apply List.filter_eq_self.mpr
    intro r hr
    have : (g.replace.any fun e => entRemovable e && e.old == r.old) = false := by
      rw [Bool.eq_false_iff]
      intro hs
      obtain ⟨e, he, hbe⟩ := List.any_eq_true.mp hs
      obtain ⟨hrem, _⟩ := Bool.and_eq_true _ _ |>.mp hbe
      rw [h e he] at hrem
      cases hrem
    rw [this]
    rfl
  rw [hf]

theorem removeBdRules_modulePath (g : GoMod) :
    (removeBdRules g).modulePath = g.modulePath := by
  unfold removeBdRules
  rw [removeOwnedLoop_eq]

theorem removeBdRules_keysNodup (g : GoMod) (h : KeysNodup g) :
    KeysNodup (removeBdRules g) := by
  unfold KeysNodup keysOf at *
  unfold removeBdRules
  rw [removeOwnedLoop_eq]
  exact ((List.filter_sublist _).map _).nodup h

theorem removeBdRules_foreign (g : GoMod) (h : KeysNodup g) :
    foreignEntries (removeBdRules g) = foreignEntries g := by
  rw [removeBdRules_eq g h]
  unfold foreignEntries keptEntries
  simp only [List.filter_filter]
  apply List.filter_congr
  intro r _
  by_cases how : entOwned r = true
  · simp [how]
  · have how2 : entOwned r = false := by
      cases hb : entOwned r with
      | false => rfl
      | true => exact absurd hb how
    simp [how2, entRemovable_of_foreign r how2]

/-! ## applyAdds invariants -/

theorem applyAdd1_modulePath (g : GoMod) (op : AddOp) :
    (applyAdd1 g op).modulePath = g.modulePath := rfl

theorem applyAdd1_keysNodup (g : GoMod) (op : AddOp) (h : KeysNodup g) :
    KeysNodup (applyAdd1 g op) := by
  unfold KeysNodup keysOf applyAdd1 at *
  simp only [List.map_append]
  apply List.Nodup.append
  · exact ((List.filter_sublist _).map _).nodup h
  · simp [addedEntry]
  · intro a ha hb
    simp only [addedEntry, List.map_cons, List.map_nil, List.mem_singleton] at hb
    subst hb
    obtain ⟨r, hrmem, hrold⟩ := List.mem_map.mp ha
    have := (List.mem_filter.mp hrmem).2
    rw [hrold] at this
    simp at this

theorem applyAdd1_kept (g : GoMod) (op : AddOp) (h : CanAdd g op.old) :
    keptEntries (applyAdd1 g op) = keptEntries g := by
  unfold keptEntries applyAdd1
  rw [List.filter_append]
  have h1 : List.filter (fun r => !entRemovable r) [addedEntry op] = [] := by
    simp [entRemovable_addedEntry]
  rw [h1, List.append_nil, List.filter_filter]
  apply List.filter_congr
  intro r hr
  by_cases hrem : entRemovable r = true
  · simp [hrem]
  · have hrem2 : entRemovable r = false := by
      cases hb : entRemovable r with
      | false => rfl
      | true => exact absurd hb hrem
    have hko : (r.old == op.old) = false := by
      rw [Bool.eq_false_iff]
      intro hbe
      have := h r hr (beq_iff_eq.mp hbe)
      rw [this] at hrem2
      cases hrem2
    simp [hrem2, hko]

theorem applyAdd1_foreign (g : GoMod) (op : AddOp) (h : CanAdd g op.old) :
    foreignEntries (applyAdd1 g op) = foreignEntries g := by
  unfold foreignEntries applyAdd1
  rw [List.filter_append]
  have h1 : List.filter (fun r => !entOwned r) [addedEntry op] = [] := by
    simp [entOwned_addedEntry]
  rw [h1, List.append_nil, List.filter_filter]
  apply List.filter_congr
  intro r hr
  by_cases how : entOwned r = true
  · simp [how]
  · have how2 : entOwned r = false := by
      cases hb : entOwned r with
      | false => rfl
      | true => exact absurd hb how
    have hko : (r.old == op.old) = false := by
      rw [Bool.eq_false_iff]
      intro hbe
      have := h r hr (beq_iff_eq.mp hbe)
      rw [entRemovable_of_foreign r how2] at this
      cases this
    simp [how2, hko]

theorem applyAdds_ok_inv (ops : List AddOp) :
    ∀ g k, applyAdds g ops = .ok k → KeysNodup g →
      KeysNodup k ∧ keptEntries k = keptEntries g ∧
        foreignEntries k = foreignEntries g ∧ k.modulePath = g.modulePath := by
  induction ops with
  | nil =>
    intro g k h hn
    unfold applyAdds at h
    cases h
    exact ⟨hn, rfl, rfl, rfl⟩
  | cons op rest ih =>
    intro g k h hn
    unfold applyAdds at h
    cases hstep : addReplace g op.old op.new op.direct op.source with
    | error e => rw [hstep] at h; cases h
    | ok g1 =>
      rw [hstep] at h
      obtain ⟨hc, hg1⟩ := addReplace_ok_inv g g1 op hstep
      subst hg1
      obtain ⟨n2, k2, f2, m2⟩ := ih _ _ h (applyAdd1_keysNodup g op hn)
      exact ⟨n2, k2.trans (applyAdd1_kept g op hc),
        f2.trans (applyAdd1_foreign g op hc), m2.trans (applyAdd1_modulePath g op)⟩

theorem applyAdds_blocked (ops : List AddOp) :
    ∀ g e0, e0 ∈ g.replace → entRemovable e0 = false →
      (∃ op ∈ ops, op.old = e0.old) → ∃ err, applyAdds g ops = .error err := by
  induction ops with
  | nil =>
    intro g e0 _ _ h
    simp at h
  | cons op rest ih =>
    intro g e0 hmem hrem hop
    obtain ⟨op1, hop1, hkey⟩ := hop
    cases hstep : addReplace g op.old op.new op.direct op.source with
    | error e =>
      refine ⟨e, ?_⟩
      unfold applyAdds
      rw [hstep]
    | ok g1 =>
      obtain ⟨hc, hg1⟩ := addReplace_ok_inv _ _ _ hstep
      have hne : op.old ≠ e0.old := by
        intro heq
        have := hc e0 hmem heq.symm
        rw [this] at hrem
        cases hrem
      have hmem1 : e0 ∈ g1.replace := by
        subst hg1
        unfold applyAdd1
        apply List.mem_append_left
        apply List.mem_filter.mpr
        refine ⟨hmem, ?_⟩
        have : (e0.old == op.old) = false := by
          rw [Bool.eq_false_iff]
          intro hbe
          exact hne (beq_iff_eq.mp hbe).symm
        rw [this]
        rfl
      have hop1r : op1 ∈ rest := by
        rcases List.mem_cons.mp hop1 with h1 | h1
        · subst h1; exact absurd hkey hne
        · exact h1
      obtain ⟨err, herr⟩ := ih g1 e0 hmem1 hrem ⟨op1, hop1r, hkey⟩
      refine ⟨err, ?_⟩
      unfold applyAdds
      rw [hstep]
      exact herr

theorem applyAdds_total (ops : List AddOp) :
    ∀ g, (∀ r ∈ g.replace, entRemovable r = true) →
      ∃ k, applyAdds g ops = .ok k ∧ ∀ r ∈ k.replace, entRemovable r = true := by
  induction ops with
  | nil =>
    intro g h
    exact ⟨g, rfl, h⟩
  | cons op rest ih =>
    intro g h
    have hc : CanAdd g op.old := fun r hr _ => h r hr
    have hall : ∀ r ∈ (applyAdd1 g op).replace, entRemovable r = true := by
      intro r hr
      unfold applyAdd1 at hr
      rcases List.mem_append.mp hr with h1 | h1
      · exact h r (List.mem_filter.mp h1).1
      · rw [List.mem_singleton.mp h1]
        exact entRemovable_addedEntry op
    obtain ⟨k, hk, hkall⟩ := ih (applyAdd1 g op) hall
    refine ⟨k, ?_, hkall⟩
    unfold applyAdds
    rw [addReplace_ok g op hc]
    exact hk

/-! ## Disk store lemmas -/

theorem diskGet_set (d : Disk) (n : String) (f : DiskFile) (m : String) :
    diskGet (diskSet d n f) m = if n = m then some f else diskGet d m := by
  induction d with
  | nil =>
    by_cases h : n = m <;> simp [diskSet, diskGet, h]
  | cons p rest ih =>
    obtain ⟨pn, pf⟩ := p
    by_cases h1 : pn = n <;> by_cases h2 : n = m <;>
      simp_all [diskSet, diskGet]

theorem diskSet_get_self (d : Disk) (n : String) (f : DiskFile)
    (h : diskGet d n = some f) : diskSet d n f = d := by
  induction d with
  | nil => simp [diskGet] at h
  | cons p rest ih =>
    obtain ⟨pn, pf⟩ := p
    by_cases h1 : pn = n
    · subst h1
      rw [diskGet, if_pos rfl] at h
      have := Option.some.inj h
      subst this
      simp [diskSet]
    · rw [diskGet, if_neg h1] at h
      simp [diskSet, h1, ih h]

theorem diskSet_set (d : Disk) (n : String) (f1 f2 : DiskFile) :
    diskSet (diskSet d n f1) n f2 = diskSet d n f2 := by
  induction d with
  | nil => simp [diskSet]
  | cons p rest ih =>
    obtain ⟨pn, pf⟩ := p
    by_cases h1 : pn = n
    · subst h1
      simp [diskSet]
    · simp [diskSet, h1, ih]

/-! ## modifyGoMod and linkGoModule normal forms -/

theorem modifyGoMod_eq (d : Disk) (dst : Package) (mf : GoMod → Except String GoMod)
    (hgm : dst.hasGoMod = true) (g : GoMod) (hget : diskGet d dst.name = some (.good g)) :
    modifyGoMod d dst mf =
      match mf g with
      | .error e => (.error e, d)
      | .ok g2 => (.ok (), diskSet d dst.name (.good g2)) := by
  unfold modifyGoMod
  have hb : (!dst.hasGoMod) = false := by rw [hgm]; rfl
  rw [hb, if_neg Bool.false_ne_true, hget]

theorem modifyGoMod_noGoMod (d : Disk) (dst : Package) (mf : GoMod → Except String GoMod)
    (h : dst.hasGoMod = false) :
    modifyGoMod d dst mf = (.error "go.mod not found", d) := by
  unfold modifyGoMod
  have hb : (!dst.hasGoMod) = true := by rw [h]; rfl
  rw [hb, if_pos rfl]

theorem modifyGoMod_badRead (d : Disk) (dst : Package) (mf : GoMod → Except String GoMod)
    (hgm : dst.hasGoMod = true)
    (h : diskGet d dst.name = none ∨ diskGet d dst.name = some .bad) :
    modifyGoMod d dst mf = (.error "cannot read or parse go.mod", d) := by
  unfold modifyGoMod
  have hb : (!dst.hasGoMod) = false := by rw [hgm]; rfl
  rw [hb, if_neg Bool.false_ne_true]
  rcases h with h | h <;> rw [h]

theorem linkGoModule_eq (d : Disk) (dst : Package) (mods : List GoModuleR) (g : GoMod)
    (hgm : dst.hasGoMod = true) (hget : diskGet d dst.name = some (.good g)) :
    linkGoModule d dst mods =
      match applyAdds (removeBdRules g) (linkAddOps dst.origin mods) with
      | .error e => (.error e, diskSet d dst.name (.good (removeBdRules g)))
      | .ok k => (.ok (), diskSet d dst.name (.good k)) := by
  have h1 : removeBlazedockReplaceRules d dst =
      (.ok (), diskSet d dst.name (.good (removeBdRules g))) := by
    unfold removeBlazedockReplaceRules
    rw [modifyGoMod_eq d dst _ hgm g hget]
  unfold linkGoModule
  rw [h1]
  show modifyGoMod (diskSet d dst.name (.good (removeBdRules g))) dst
      (fun g2 => applyAdds g2 (linkAddOps dst.origin mods)) = _
  rw [modifyGoMod_eq _ dst _ hgm (removeBdRules g) (by rw [diskGet_set]; simp)]
  cases applyAdds (removeBdRules g) (linkAddOps dst.origin mods) with
  | error e => rfl
  | ok k =>
    show (Except.ok (), diskSet (diskSet d dst.name _) dst.name _) = _
    rw [diskSet_set]

theorem linkGoModule_noGoMod (d : Disk) (dst : Package) (mods : List GoModuleR)
    (h : dst.hasGoMod = false) :
    linkGoModule d dst mods = (.error "go.mod not found", d) := by
  unfold linkGoModule removeBlazedockReplaceRules
  rw [modifyGoMod_noGoMod d dst _ h]

theorem linkGoModule_badRead (d : Disk) (dst : Package) (mods : List GoModuleR)
    (hgm : dst.hasGoMod = true)
    (h : diskGet d dst.name = none ∨ diskGet d dst.name = some .bad) :
    linkGoModule d dst mods = (.error "cannot read or parse go.mod", d) := by
  unfold linkGoModule removeBlazedockReplaceRules
  rw [modifyGoMod_badRead d dst _ hgm h]

theorem linkGoModule_ok_inv (d d1 : Disk) (dst : Package) (mods : List GoModuleR)
    (h : linkGoModule d dst mods = (.ok (), d1)) :
    dst.hasGoMod = true ∧ ∃ g, diskGet d dst.name = some (.good g) := by
  by_cases hgm : dst.hasGoMod = true
  · refine ⟨hgm, ?_⟩
    cases hget : diskGet d dst.name with
    | none =>
      rw [linkGoModule_badRead d dst mods hgm (Or.inl hget)] at h
      simp at h
    | some f =>
      cases f with
      | good g => exact ⟨g, rfl⟩
      | bad =>
        rw [linkGoModule_badRead d dst mods hgm (Or.inr hget)] at h
        simp at h
  · have hgm2 : dst.hasGoMod = false := by
      cases hb : dst.hasGoMod with
      | false => rfl
      | true => exact absurd hb hgm
    rw [linkGoModule_noGoMod d dst mods hgm2] at h
    simp at h

/-! ## Views and preservation -/

/-- What the collector can observe of one package's manifest file:
existence, parseability, module path and foreign entries. -/
def ModView (d : Disk) (n : String) : Option (Option (String × List Replace)) :=
  match diskGet d n with
  | none => none
  | some .bad => some none
  | some (.good g) => some (some (g.modulePath, foreignEntries g))

/-- The spec invariant across the store: every parseable manifest has at
most one replace entry per key. -/
def WellFormed (d : Disk) : Prop :=
  ∀ n g, diskGet d n = some (.good g) → KeysNodup g

theorem modView_set (d : Disk) (m : String) (g g2 : GoMod)
    (hget : diskGet d m = some (.good g))
    (hf : foreignEntries g2 = foreignEntries g) (hm : g2.modulePath = g.modulePath) :
    ∀ n, ModView (diskSet d m (.good g2)) n = ModView d n := by
  intro n
  unfold ModView
  rw [diskGet_set]
  by_cases h : m = n
  · subst h
    rw [if_pos rfl, hget]
    show some (some (g2.modulePath, foreignEntries g2)) =
      some (some (g.modulePath, foreignEntries g))
    rw [hf, hm]
  · rw [if_neg h]

theorem wf_set (d : Disk) (m : String) (g2 : GoMod)
    (h : WellFormed d) (hn : KeysNodup g2) : WellFormed (diskSet d m (.good g2)) := by
  intro n g hget
  rw [diskGet_set] at hget
  by_cases hm : m = n
  · rw [if_pos hm] at hget
    have := Option.some.inj hget
    cases this
    exact hn
  · rw [if_neg hm] at hget
    exact h n g hget

theorem remove_preserves (d : Disk) (p : Package) (hwf : WellFormed d) :
    (∀ n, ModView (removeBlazedockReplaceRules d p).2 n = ModView d n) ∧
      WellFormed (removeBlazedockReplaceRules d p).2 := by
  unfold removeBlazedockReplaceRules
  by_cases hgm : p.hasGoMod = true
  · cases hget : diskGet d p.name with
    | none =>
      rw [modifyGoMod_badRead d p _ hgm (Or.inl hget)]
      exact ⟨fun n => rfl, hwf⟩
    | some f =>
      cases f with
      | bad =>
        rw [modifyGoMod_badRead d p _ hgm (Or.inr hget)]
        exact ⟨fun n => rfl, hwf⟩
      | good g =>
        rw [modifyGoMod_eq d p _ hgm g hget]
        have hng : KeysNodup g := hwf _ _ hget
        exact ⟨modView_set d p.name g (removeBdRules g) hget
            (removeBdRules_foreign g hng) (removeBdRules_modulePath g),
          wf_set d p.name (removeBdRules g) hwf (removeBdRules_keysNodup g hng)⟩
  · have hgm2 : p.hasGoMod = false := by
      cases hb : p.hasGoMod with
      | false => rfl
      | true => exact absurd hb hgm
    rw [modifyGoMod_noGoMod d p _ hgm2]
    exact ⟨fun n => rfl, hwf⟩

theorem link_preserves (d : Disk) (p : Package) (mods : List GoModuleR) (hwf : WellFormed d) :
    (∀ n, ModView (linkGoModule d p mods).2 n = ModView d n) ∧
      WellFormed (linkGoModule d p mods).2 := by
  by_cases hgm : p.hasGoMod = true
  · cases hget : diskGet d p.name with
    | none =>
      rw [linkGoModule_badRead d p mods hgm (Or.inl hget)]
      exact ⟨fun n => rfl, hwf⟩
    | some f =>
      cases f with
      | bad =>
        rw [linkGoModule_badRead d p mods hgm (Or.inr hget)]
        exact ⟨fun n => rfl, hwf⟩
      | good g =>
        rw [linkGoModule_eq d p mods g hgm hget]
        have hng : KeysNodup g := hwf _ _ hget
        have hr0 : KeysNodup (removeBdRules g) := removeBdRules_keysNodup g hng
        cases hadds : applyAdds (removeBdRules g) (linkAddOps p.origin mods) with
        | error e =>
          exact ⟨modView_set d p.name g (removeBdRules g) hget
              (removeBdRules_foreign g hng) (removeBdRules_modulePath g),
            wf_set d p.name (removeBdRules g) hwf hr0⟩
        | ok k =>
          obtain ⟨hkN, _, hkf, hkm⟩ := applyAdds_ok_inv _ _ _ hadds hr0
          exact ⟨modView_set d p.name g k hget
              (by rw [hkf, removeBdRules_foreign g hng])
              (by rw [hkm, removeBdRules_modulePath]),
            wf_set d p.name k hwf hkN⟩
  · have hgm2 : p.hasGoMod = false := by
      cases hb : p.hasGoMod with
      | false => rfl
      | true => exact absurd hb hgm
    rw [linkGoModule_noGoMod d p mods hgm2]
    exact ⟨fun n => rfl, hwf⟩

theorem linkAll_preserves (mods : List (String × GoModuleR)) (target : Option Package)
    (l : List Package) :
    ∀ d, WellFormed d →
      (∀ n, ModView (linkAll d mods target l).2 n = ModView d n) ∧
        WellFormed (linkAll d mods target l).2 := by
  induction l with
  | nil => intro d hwf; exact ⟨fun n => rfl, hwf⟩
  | cons p rest ih =>
    intro d hwf
    unfold linkAll
    by_cases h1 : (p.typ != PkgType.go) = true
    · rw [if_pos h1]
      exact ih d hwf
    · rw [if_neg h1]
      by_cases h2 : skipTarget target p = true
      · rw [if_pos h2]
        exact ih d hwf
      · rw [if_neg h2]
        obtain ⟨hv, hw⟩ := link_preserves d p (resolvedMods mods p) hwf
        cases hlink : linkGoModule d p (resolvedMods mods p) with
        | mk res d2 =>
          rw [hlink] at hv hw
          cases res with
          | error e => exact ⟨hv, hw⟩
          | ok u =>
            obtain ⟨hv2, hw2⟩ := ih d2 hw
            exact ⟨fun n => (hv2 n).trans (hv n), hw2⟩

theorem LinkGoModules_preserves (d : Disk) (ws : Workspace) (target : Option Package)
    (hwf : WellFormed d) :
    (∀ n, ModView (LinkGoModules d ws target).2 n = ModView d n) ∧
      WellFormed (LinkGoModules d ws target).2 := by
  unfold LinkGoModules
  cases collectReplacements d ws.packages with
  | error e => exact ⟨fun n => rfl, hwf⟩
  | ok mods => exact linkAll_preserves mods target ws.packages d hwf

theorem teardownAll_preserves (l : List Package) :
    ∀ d, WellFormed d →
      (∀ n, ModView (teardownAll d l).2 n = ModView d n) ∧
        WellFormed (teardownAll d l).2 := by
  induction l with
  | nil => intro d hwf; exact ⟨fun n => rfl, hwf⟩
  | cons p rest ih =>
    intro d hwf
    unfold teardownAll
    by_cases h1 : (p.typ != PkgType.go) = true
    · rw [if_pos h1]
      exact ih d hwf
    · rw [if_neg h1]
      obtain ⟨hv, hw⟩ := remove_preserves d p hwf
      cases hrm : removeBlazedockReplaceRules d p with
      | mk res d2 =>
        rw [hrm] at hv hw
        cases res with
        | error e => exact ⟨hv, hw⟩
        | ok u =>
          obtain ⟨hv2, hw2⟩ := ih d2 hw
          exact ⟨fun n => (hv2 n).trans (hv n), hw2⟩

theorem LinkGoWorkspace_preserves (st : WsState) (ws : Workspace)
    (hwf : WellFormed st.disk) :
    (∀ n, ModView (LinkGoWorkspace st ws).2.disk n = ModView st.disk n) ∧
      WellFormed (LinkGoWorkspace st ws).2.disk := by
  unfold LinkGoWorkspace
  cases st with
  | mk work disk =>
    cases work with
    | none => exact ⟨fun n => rfl, hwf⟩
    | some wf =>
      obtain ⟨hv, hw⟩ := teardownAll_preserves ws.packages disk hwf
      cases htd : teardownAll disk ws.packages with
      | mk res d2 =>
        rw [htd] at hv hw
        cases res with
        | error e => exact ⟨hv, hw⟩
        | ok u => exact ⟨hv, hw⟩

/-! ## Collector congruence -/

theorem collect_congr (dA dB : Disk) (h : ∀ n, ModView dA n = ModView dB n) :
    ∀ l, collectReplacements dA l = collectReplacements dB l := by
  intro l
  induction l with
  | nil => rfl
  | cons p rest ih =>
    unfold collectReplacements
    by_cases h1 : (p.typ != PkgType.go) = true
    · rw [if_pos h1, if_pos h1]
      exact ih
    · rw [if_neg h1, if_neg h1]
      by_cases h2 : (!p.hasGoMod) = true
      · rw [if_pos h2, if_pos h2]
        exact ih
      · rw [if_neg h2, if_neg h2]
        have hv := h p.name
        unfold ModView at hv
        cases hA : diskGet dA p.name with
        | none =>
          cases hB : diskGet dB p.name with
          | none => rfl
          | some f =>
            rw [hA, hB] at hv
            cases f <;> simp at hv
        | some f =>
          cases f with
          | bad =>
            cases hB : diskGet dB p.name with
            | none => rfl
            | some f2 =>
              cases f2 with
              | bad => rfl
              | good g2 =>
                rw [hA, hB] at hv
                simp at hv
          | good g =>
            cases hB : diskGet dB p.name with
            | none =>
              rw [hA, hB] at hv
              simp at hv
            | some f2 =>
              cases f2 with
              | bad =>
                rw [hA, hB] at hv
                simp at hv
              | good g2 =>
                rw [hA, hB] at hv
                simp only [Option.some.injEq, Prod.mk.injEq] at hv
                obtain ⟨hmp, hfe⟩ := hv
                unfold foreignEntries at hfe
                rw [ih]
                show (match collectReplacements dB rest with
                    | Except.error e => Except.error e
                    | Except.ok ms => Except.ok ((p.name,
                        (⟨g.modulePath, p.origin, p.name,
                          g.replace.filter fun r => !entOwned r⟩ : GoModuleR)) :: ms)) =
                  (match collectReplacements dB rest with
                    | Except.error e => Except.error e
                    | Except.ok ms => Except.ok ((p.name,
                        (⟨g2.modulePath, p.origin, p.name,
                          g2.replace.filter fun r => !entOwned r⟩ : GoModuleR)) :: ms))
                rw [hmp, hfe]

/-! ## Idempotence machinery -/

theorem linkGoModule_get_other (d : Disk) (p : Package) (mods : List GoModuleR)
    (n : String) (hn : p.name ≠ n) :
    diskGet (linkGoModule d p mods).2 n = diskGet d n := by
  by_cases hgm : p.hasGoMod = true
  · cases hget : diskGet d p.name with
    | none => rw [linkGoModule_badRead d p mods hgm (Or.inl hget)]
    | some f =>
      cases f with
      | bad => rw [linkGoModule_badRead d p mods hgm (Or.inr hget)]
      | good g =>
        rw [linkGoModule_eq d p mods g hgm hget]
        cases applyAdds (removeBdRules g) (linkAddOps p.origin mods) with
        | error e =>
          show diskGet (diskSet d p.name (.good (removeBdRules g))) n = diskGet d n
          rw [diskGet_set, if_neg hn]
        | ok k =>
          show diskGet (diskSet d p.name (.good k)) n = diskGet d n
          rw [diskGet_set, if_neg hn]
  · have hgm2 : p.hasGoMod = false := by
      cases hb : p.hasGoMod with
      | false => rfl
      | true => exact absurd hb hgm
    rw [linkGoModule_noGoMod d p mods hgm2]

theorem linkAll_get_other (mods : List (String × GoModuleR)) (target : Option Package)
    (l : List Package) :
    ∀ d n, (∀ q ∈ l, q.name ≠ n) →
      diskGet (linkAll d mods target l).2 n = diskGet d n := by
  induction l with
  | nil => intro d n _; rfl
  | cons p rest ih =>
    intro d n h
    unfold linkAll
    by_cases h1 : (p.typ != PkgType.go) = true
    · rw [if_pos h1]
      exact ih d n fun q hq => h q (List.mem_cons_of_mem _ hq)
    · rw [if_neg h1]
      by_cases h2 : skipTarget target p = true
      · rw [if_pos h2]
        exact ih d n fun q hq => h q (List.mem_cons_of_mem _ hq)
      · rw [if_neg h2]
        have hpn : p.name ≠ n := h p (List.mem_cons_self _ _)
        have hd2 := linkGoModule_get_other d p (resolvedMods mods p) n hpn
        cases hlink : linkGoModule d p (resolvedMods mods p) with
        | mk res d2 =>
          rw [hlink] at hd2
          cases res with
          | error e => exact hd2
          | ok u =>
            exact (ih d2 n fun q hq => h q (List.mem_cons_of_mem _ hq)).trans hd2

theorem linkGoModule_idem_at (d d1 D : Disk) (p : Package) (mods : List GoModuleR)
    (hwf : WellFormed d) (h : linkGoModule d p mods = (.ok (), d1))
    (hD : diskGet D p.name = diskGet d1 p.name) :
    linkGoModule D p mods = (.ok (), D) := by
  obtain ⟨hgm, g, hget⟩ := linkGoModule_ok_inv d d1 p mods h
  rw [linkGoModule_eq d p mods g hgm hget] at h
  have hng : KeysNodup g := hwf _ _ hget
  have hr0N := removeBdRules_keysNodup g hng
  cases hadds : applyAdds (removeBdRules g) (linkAddOps p.origin mods) with
  | error e => rw [hadds] at h; simp at h
  | ok k =>
    rw [hadds] at h
    have hd1 : diskSet d p.name (.good k) = d1 := congrArg Prod.snd h
    have hget1 : diskGet D p.name = some (.good k) := by
      rw [hD, ← hd1, diskGet_set]
      simp
    obtain ⟨hkN, hkept, _, hkm⟩ := applyAdds_ok_inv _ _ _ hadds hr0N
    have hrk : removeBdRules k = removeBdRules g := by
      rw [removeBdRules_eq k hkN]
      have h1 : keptEntries (removeBdRules g) = (removeBdRules g).replace := by
        unfold keptEntries
        apply List.filter_eq_self.mpr
        intro r hr
        rw [removeBdRules_no_removable g r hr]
        rfl
      rw [hkept, h1, hkm]
    rw [linkGoModule_eq D p mods k hgm hget1, hrk, hadds]
    show ((Except.ok (), diskSet D p.name (DiskFile.good k)) : Except String Unit × Disk) =
      (.ok (), D)
    rw [diskSet_get_self D p.name _ hget1]

theorem linkAll_idem (mods : List (String × GoModuleR)) (target : Option Package)
    (l : List Package) :
    ∀ d d1, WellFormed d → (l.map (fun q => q.name)).Nodup →
      linkAll d mods target l = (.ok (), d1) →
      linkAll d1 mods target l = (.ok (), d1) := by
  induction l with
  | nil =>
    intro d d1 _ _ h
    have : d = d1 := congrArg Prod.snd h
    subst this
    rfl
  | cons p rest ih =>
    intro d d1 hwf hnames h
    have hnames2 : (rest.map (fun q => q.name)).Nodup :=
      (List.nodup_cons.mp hnames).2
    have hpn : p.name ∉ rest.map (fun q => q.name) :=
      (List.nodup_cons.mp hnames).1
    unfold linkAll at h ⊢
    by_cases h1 : (p.typ != PkgType.go) = true
    · rw [if_pos h1] at h ⊢
      exact ih d d1 hwf hnames2 h
    · rw [if_neg h1] at h ⊢
      by_cases h2 : skipTarget target p = true
      · rw [if_pos h2] at h ⊢
        exact ih d d1 hwf hnames2 h
      · rw [if_neg h2] at h ⊢
        cases hlink : linkGoModule d p (resolvedMods mods p) with
        | mk res d2 =>
          rw [hlink] at h
          cases res with
          | error e => simp at h
          | ok u =>
            cases u
            have hrest : linkAll d2 mods target rest = (.ok (), d1) := h
            have hw2 : WellFormed d2 := by
              have := (link_preserves d p (resolvedMods mods p) hwf).2
              rw [hlink] at this
              exact this
            have hsame : diskGet d1 p.name = diskGet d2 p.name := by
              have hoth := linkAll_get_other mods target rest d2 p.name
                (fun q hq heq => hpn (heq ▸ List.mem_map_of_mem _ hq))
              rw [hrest] at hoth
              exact hoth
            have hstep2 : linkGoModule d1 p (resolvedMods mods p) = (.ok (), d1) :=
              linkGoModule_idem_at d d2 d1 p (resolvedMods mods p) hwf hlink hsame
            rw [hstep2]
            exact ih d2 d1 hw2 hnames2 hrest

/-! ## Claim theorems -/

/-- Per-file well-formedness: a parseable manifest has unique keys. -/
def fileWF : DiskFile → Prop
  | .good g => KeysNodup g
  | .bad => True

instance : ∀ f : DiskFile, Decidable (fileWF f)
  | .good g => inferInstanceAs (Decidable (KeysNodup g))
  | .bad => inferInstanceAs (Decidable True)

theorem wellFormed_of_all (l : Disk) (h : ∀ pr ∈ l, fileWF pr.2) : WellFormed l := by
  induction l with
  | nil =>
    intro n g hget
    simp [diskGet] at hget
  | cons p rest ih =>
    intro n g hget
    obtain ⟨pn, pf⟩ := p
    rw [diskGet] at hget
    by_cases h1 : pn = n
    · rw [if_pos h1] at hget
      have hpf := h (pn, pf) (List.mem_cons_self _ _)
      have : pf = DiskFile.good g := Option.some.inj hget
      rw [this] at hpf
      exact hpf
    · rw [if_neg h1] at hget
      exact ih (fun pr hpr => h pr (List.mem_cons_of_mem _ hpr)) n g hget

/-- What an observer sees of a package manifest's foreign entries. -/
def ForeignView (d : Disk) (n : String) : Option (List Replace) :=
  match diskGet d n with
  | some (.good g) => some (foreignEntries g)
  | _ => none

theorem foreignView_congr (dA dB : Disk) (n : String)
    (h : ModView dA n = ModView dB n) : ForeignView dA n = ForeignView dB n := by
  unfold ModView at h
  unfold ForeignView
  cases hA : diskGet dA n with
  | none =>
    cases hB : diskGet dB n with
    | none => rfl
    | some f =>
      rw [hA, hB] at h
      cases f <;> simp at h
  | some f =>
    cases f with
    | bad =>
      cases hB : diskGet dB n with
      | none => rfl
      | some f2 =>
        cases f2 with
        | bad => rfl
        | good g2 =>
          rw [hA, hB] at h
          simp at h
    | good g =>
      cases hB : diskGet dB n with
      | none =>
        rw [hA, hB] at h
        simp at h
      | some f2 =>
        cases f2 with
        | bad =>
          rw [hA, hB] at h
          simp at h
        | good g2 =>
          rw [hA, hB] at h
          simp only [Option.some.injEq, Prod.mk.injEq] at h
          show some (foreignEntries g) = some (foreignEntries g2)
          rw [h.2]

/-- C2: no operation of the engine adds, removes, or modifies a foreign
replace entry: for every well-formed store (at most one entry per key in
each manifest, the spec's own invariant), linking one module, tearing one
module down, linking all modules, and synchronizing the workspace each
leave every manifest's foreign-entry list (keys, targets, order) exactly
as it was, whether the operation succeeds or fails. -/
theorem C2_foreign_never_touched (d : Disk) (hwf : WellFormed d) :
    (∀ p mods n, ForeignView (linkGoModule d p mods).2 n = ForeignView d n) ∧
    (∀ p n, ForeignView (removeBlazedockReplaceRules d p).2 n = ForeignView d n) ∧
    (∀ ws target n, ForeignView (LinkGoModules d ws target).2 n = ForeignView d n) ∧
    (∀ st ws n, st.disk = d →
      ForeignView (LinkGoWorkspace st ws).2.disk n = ForeignView d n) := by
  refine ⟨?_, ?_, ?_, ?_⟩
  · intro p mods n
    exact foreignView_congr _ _ n ((link_preserves d p mods hwf).1 n)
  · intro p n
    exact foreignView_congr _ _ n ((remove_preserves d p hwf).1 n)
  · intro ws target n
    exact foreignView_congr _ _ n ((LinkGoModules_preserves d ws target hwf).1 n)
  · intro st ws n hst
    subst hst
    exact foreignView_congr _ _ n ((LinkGoWorkspace_preserves st ws hwf).1 n)

/-- C4: re-running the Module Linker on unchanged inputs is idempotent:
when a first `LinkGoModules` run on a well-formed store succeeds with
result state `d1`, running it again from `d1` succeeds and writes exactly
the same manifests, leaving the store at `d1` (under the structural model
of the deterministic manifest serializer, state equality is byte-identical
output). -/
theorem C4_link_modules_idempotent (d d1 : Disk) (ws : Workspace) (target : Option Package)
    (hwf : WellFormed d) (hnames : (ws.packages.map (fun q => q.name)).Nodup)
    (h : LinkGoModules d ws target = (.ok (), d1)) :
    LinkGoModules d1 ws target = (.ok (), d1) := by
  unfold LinkGoModules at h ⊢
  cases hc : collectReplacements d ws.packages with
  | error e =>
    rw [hc] at h
    simp at h
  | ok mods =>
    rw [hc] at h
    have h2 : linkAll d mods target ws.packages = (.ok (), d1) := h
    have hview : ∀ n, ModView d1 n = ModView d n := by
      have hp := (linkAll_preserves mods target ws.packages d hwf).1
      rw [h2] at hp
      exact hp
    have hc1 : collectReplacements d1 ws.packages = .ok mods := by
      rw [collect_congr d1 d hview ws.packages, hc]
    rw [hc1]
    exact linkAll_idem mods target ws.packages d d1 hwf hnames h2

/-- C7: when the workspace manifest `go.work` does not exist, the
Workspace Synchronizer fails and performs zero mutation: the returned
state (workspace manifest and every per-package manifest) is exactly the
input state. -/
theorem C7_no_work_file_no_mutation (st : WsState) (ws : Workspace) (h : st.work = none) :
    LinkGoWorkspace st ws = (.error "not a Go workspace", st) := by
  unfold LinkGoWorkspace
  rw [h]

/-- C8: if any single Go package with a manifest among its sources has an
unreadable or unparseable manifest, the Override Collector aborts with an
error carrying no registry, and `LinkGoModules` propagates that error
without mutating any file. -/
theorem C8_collect_all_or_nothing (d : Disk) (l : List Package) (p : Package)
    (hp : p ∈ l) (hgo : p.typ = PkgType.go) (hgm : p.hasGoMod = true)
    (hbad : diskGet d p.name = none ∨ diskGet d p.name = some DiskFile.bad) :
    ∃ e, collectReplacements d l = .error e ∧
      ∀ ws target, ws.packages = l → LinkGoModules d ws target = (.error e, d) := by
  have hcol : ∀ l2 : List Package, p ∈ l2 → ∃ e, collectReplacements d l2 = .error e := by
    intro l2
    induction l2 with
    | nil =>
      intro hmem
      simp at hmem
    | cons q rest ih =>
      intro hmem
      unfold collectReplacements
      by_cases h1 : (q.typ != PkgType.go) = true
      · rcases List.mem_cons.mp hmem with hqp | hmem2
        · subst hqp
          rw [hgo] at h1
          simp at h1
        · rw [if_pos h1]
          exact ih hmem2
      · rw [if_neg h1]
        by_cases h2 : (!q.hasGoMod) = true
        · rcases List.mem_cons.mp hmem with hqp | hmem2
          · subst hqp
            rw [hgm] at h2
            simp at h2
          · rw [if_pos h2]
            exact ih hmem2
        · rw [if_neg h2]
          cases hq : diskGet d q.name with
          | none => exact ⟨_, rfl⟩
          | some f =>
            cases f with
            | bad => exact ⟨_, rfl⟩
            | good g =>
              rcases List.mem_cons.mp hmem with hqp | hmem2
              · subst hqp
                rcases hbad with hb | hb <;> rw [hb] at hq <;> cases hq
              · obtain ⟨e, he⟩ := ih hmem2
                refine ⟨e, ?_⟩
                rw [he]
  obtain ⟨e, he⟩ := hcol l hp
  refine ⟨e, he, ?_⟩
  intro ws target hws
  unfold LinkGoModules
  rw [hws, he]

/-! ## Concrete instances and witnesses -/

/-- A hand-written (foreign) replace entry pinning a version. -/
def exForeign : Replace := ⟨⟨"k", "v1"⟩, ⟨"y", ""⟩, ["// pinned by hand"], false⟩

def c4pa : Package := ⟨"c:a", .go, "/w/a", true, []⟩
def c4pb : Package := ⟨"c:b", .go, "/w/b", true, [⟨"c:a", .go⟩]⟩
def c4ws : Workspace := ⟨"/w", [c4pa, c4pb]⟩
def c4d : Disk := [("c:a", .good ⟨"mod.a", [exForeign]⟩), ("c:b", .good ⟨"mod.b", []⟩)]
def c4d1 : Disk := (LinkGoModules c4d c4ws none).2

theorem C4_witness :
    WellFormed c4d ∧ (c4ws.packages.map (fun q => q.name)).Nodup ∧
      LinkGoModules c4d c4ws none = (.ok (), c4d1) ∧
      LinkGoModules c4d1 c4ws none = (.ok (), c4d1) :=
  ⟨wellFormed_of_all c4d (by decide), by decide, by decide,
    C4_link_modules_idempotent c4d c4d1 c4ws none (wellFormed_of_all c4d (by decide))
      (by decide) (by decide)⟩

theorem C2_witness :
    WellFormed c4d ∧
      ForeignView (linkGoModule c4d c4pa []).2 "c:a" = ForeignView c4d "c:a" :=
  ⟨wellFormed_of_all c4d (by decide),
    (C2_foreign_never_touched c4d (wellFormed_of_all c4d (by decide))).1 c4pa [] "c:a"⟩

def c7st : WsState := ⟨none, [("c:a", .good ⟨"mod.a", []⟩)]⟩

theorem C7_witness :
    c7st.work = none ∧ LinkGoWorkspace c7st c4ws = (.error "not a Go workspace", c7st) :=
  ⟨rfl, C7_no_work_file_no_mutation c7st c4ws rfl⟩

def c8pbad : Package := ⟨"c:bad", .go, "/w/bad", true, []⟩
def c8l : List Package := [c4pa, c8pbad]
def c8d : Disk := [("c:a", .good ⟨"mod.a", []⟩), ("c:bad", .bad)]

theorem C8_witness :
    c8pbad ∈ c8l ∧ c8pbad.typ = PkgType.go ∧ c8pbad.hasGoMod = true ∧
      diskGet c8d c8pbad.name = some DiskFile.bad ∧
      ∃ e, collectReplacements c8d c8l = .error e ∧
        ∀ ws target, ws.packages = c8l → LinkGoModules c8d ws target = (.error e, c8d) :=
  ⟨by decide, by decide, by decide, by decide,
    C8_collect_all_or_nothing c8d c8l c8pbad (by decide) (by decide) (by decide)
      (Or.inr (by decide))⟩

/-- C1 (amended): when the target manifest holds a foreign entry for key K
and the dependency closure replays an override for K, `linkGoModule` fails
with an error — but the on-disk manifest is not left untouched: it equals
the pre-state with the owned (non-ignore) entries removed, because the
teardown write is committed before the conflict is detected. It is
byte-identical to the pre-state only when the teardown removed nothing. -/
theorem C1_conflict_fails_after_teardown_write (d : Disk) (p : Package)
    (mods : List GoModuleR) (g : GoMod) (e0 : Replace)
    (hgm : p.hasGoMod = true) (hget : diskGet d p.name = some (.good g))
    (hN : KeysNodup g) (hmem : e0 ∈ g.replace) (hfor : entOwned e0 = false)
    (hK : ∃ op ∈ linkAddOps p.origin mods, op.old = e0.old) :
    ∃ err, linkGoModule d p mods =
      (.error err, diskSet d p.name (.good (removeBdRules g))) := by
  have hmem0 : e0 ∈ (removeBdRules g).replace := by
    rw [removeBdRules_eq g hN]
    show e0 ∈ keptEntries g
    unfold keptEntries
    exact List.mem_filter.mpr ⟨hmem, by rw [entRemovable_of_foreign e0 hfor]; rfl⟩
  have hrem0 : entRemovable e0 = false := entRemovable_of_foreign e0 hfor
  obtain ⟨err, herr⟩ :=
    applyAdds_blocked (linkAddOps p.origin mods) (removeBdRules g) e0 hmem0 hrem0 hK
  refine ⟨err, ?_⟩
  rw [linkGoModule_eq d p mods g hgm hget, herr]

def c1g : GoMod :=
  ⟨"mod.t", [⟨⟨"x", ""⟩, ⟨"../x", ""⟩, ["// blazedock"], true⟩, exForeign]⟩
def c1p : Package := ⟨"c:t", .go, "/w/t", true, []⟩
def c1d : Disk := [("c:t", .good c1g)]
def c1mods : List GoModuleR :=
  [⟨"dep.mod", "/w/dep", "c:dep", [⟨⟨"k", "v1"⟩, ⟨"z", ""⟩, ["// theirs"], false⟩]⟩]

/-- C1 counterexample: at this input the target's manifest has a foreign
entry for key ("k","v1") and the dependency replays an override for the
same key; linking fails as the claim says, but the on-disk manifest is NOT
byte-identical to its pre-call state — the owned direct entry has already
been removed and the removal committed — refuting the claim as stated. -/
theorem C1_counterexample :
    (linkGoModule c1d c1p c1mods).1.isOk = false ∧
      (linkGoModule c1d c1p c1mods).2 ≠ c1d := by
  constructor
  · decide
  · decide

theorem C1_witness :
    c1p.hasGoMod = true ∧ diskGet c1d c1p.name = some (.good c1g) ∧ KeysNodup c1g ∧
      exForeign ∈ c1g.replace ∧ entOwned exForeign = false ∧
      (∃ op ∈ linkAddOps c1p.origin c1mods, op.old = exForeign.old) ∧
      ∃ err, linkGoModule c1d c1p c1mods =
        (.error err, diskSet c1d c1p.name (.good (removeBdRules c1g))) :=
  ⟨rfl, by decide, by decide, by decide, by decide, by decide,
    C1_conflict_fails_after_teardown_write c1d c1p c1mods c1g exForeign (by decide)
      (by decide) (by decide) (by decide) (by decide) (by decide)⟩

def c3g : GoMod := ⟨"mod.m", [⟨⟨"a", "v"⟩, ⟨"b", ""⟩, ["// blazedock ignore "], true⟩]⟩

/-- C3 counterexample: teardown does not remove owned entries of the
ignore sub-kind: on a manifest holding one owned-ignore entry,
`removeBlazedockReplaceRules`'s manifest transformation is the identity
and an engine-owned entry remains afterwards, refuting "removes ALL
previously owned entries of every owned sub-kind; no owned entry of any
sub-kind remains". -/
theorem C3_counterexample :
    removeBdRules c3g = c3g ∧ ∃ r ∈ (removeBdRules c3g).replace, entOwned r = true := by
  constructor
  · decide
  · decide

/-- C3 (amended): on a manifest with unique keys, teardown removes exactly
the owned entries of the direct and indirect sub-kinds; foreign entries
and owned entries of the ignore sub-kind are kept verbatim, so any owned
entry remaining afterwards is of the ignore sub-kind. -/
theorem C3_teardown_removes_owned_except_ignore (g : GoMod) (h : KeysNodup g) :
    removeBdRules g = ⟨g.modulePath, g.replace.filter fun r => !entRemovable r⟩ ∧
      ∀ r ∈ (removeBdRules g).replace, entOwned r = true → entTpe r = BdType.ignore := by
  constructor
  · exact removeBdRules_eq g h
  · intro r hr how
    have hnr := removeBdRules_no_removable g r hr
    unfold entRemovable at hnr
    rw [how] at hnr
    simp at hnr
    exact hnr

theorem C3_witness :
    KeysNodup c1g ∧
      (removeBdRules c1g = ⟨c1g.modulePath, c1g.replace.filter fun r => !entRemovable r⟩ ∧
        ∀ r ∈ (removeBdRules c1g).replace, entOwned r = true → entTpe r = BdType.ignore) :=
  ⟨by decide, C3_teardown_removes_owned_except_ignore c1g (by decide)⟩

def c10pa : Package := ⟨"c:a", .go, "/w/a", true, []⟩
def c10pb : Package := ⟨"c:b", .go, "/w/b", true, []⟩
def c10pc : Package := ⟨"c:c", .go, "/w/c", true, [⟨"c:a", .go⟩, ⟨"c:b", .go⟩]⟩
def c10ws : Workspace := ⟨"/w", [c10pa, c10pb, c10pc]⟩
def c10d : Disk :=
  [("c:a", .good ⟨"mod.a", [⟨⟨"k", "v"⟩, ⟨"x", ""⟩, ["// from a"], false⟩]⟩),
   ("c:b", .good ⟨"mod.b", [⟨⟨"k", "v"⟩, ⟨"ydiff", ""⟩, ["// from b"], false⟩]⟩),
   ("c:c", .good ⟨"mod.c", []⟩)]

/-- C10: two dependencies (module identities "mod.a" < "mod.b") both
propagate a foreign override for the same key ("k","v") with different
targets; linking the dependent raises no error and does not deduplicate:
the replay from the second drops the owned entry just written for the
first and re-adds the key with the second dependency's target, so the
dependency last in ascending module-identity order ("c:b") silently wins,
and exactly one entry for the key remains. -/
theorem C10_last_writer_wins :
    (LinkGoModules c10d c10ws (some c10pc)).1.isOk = true ∧
      diskGet (LinkGoModules c10d c10ws (some c10pc)).2 "c:c" =
        some (.good ⟨"mod.c",
          [⟨⟨"mod.a", ""⟩, ⟨"/w/a", ""⟩, ["// blazedock"], true⟩,
           ⟨⟨"mod.b", ""⟩, ⟨"/w/b", ""⟩, ["// blazedock"], true⟩,
           ⟨⟨"k", "v"⟩, ⟨"ydiff", ""⟩, ["// blazedock indirect from c:b"], true⟩]⟩) := by
  constructor
  · decide
  · decide

/-! ## C5: the ownership classifier -/

theorem isBdToks_foreign_iff (toks : List String) :
    (isBdToks toks).1 = false ↔ ∀ c ∈ toks, strContains c "blazedock" = false := by
  induction toks with
  | nil =>
    simp [isBdToks]
  | cons c rest ih =>
    rw [isBdToks]
    by_cases hc : strContains c "blazedock" = true
    · rw [if_pos hc]
      constructor
      · intro h
        exact absurd h (by simp)
      · intro h
        have := h c (List.mem_cons_self _ _)
        rw [hc] at this
        cases this
    · have hc2 : strContains c "blazedock" = false := by
        cases hb : strContains c "blazedock" with
        | false => rfl
        | true => exact absurd hb hc
      rw [if_neg hc]
      constructor
      · intro h c2 hmem
        rcases List.mem_cons.mp hmem with h1 | h1
        · rw [h1]
          exact hc2
        · exact ih.mp h c2 h1
      · intro h
        exact ih.mpr fun c2 h2 => h c2 (List.mem_cons_of_mem _ h2)

theorem isBdToks_first (c : String) (post : List String) :
    ∀ pre, (∀ c2 ∈ pre, strContains c2 "blazedock" = false) →
      strContains c "blazedock" = true →
      isBdToks (pre ++ c :: post) =
        (true, if strContains c " indirect " = true then BdType.indirect
          else if strContains c " ignore " = true then BdType.ignore
          else BdType.direct) := by
  intro pre
  induction pre with
  | nil =>
    intro _ hc
    rw [List.nil_append, isBdToks, if_pos hc]
  | cons q rest ih =>
    intro hpre hc
    rw [List.cons_append, isBdToks]
    have hq : strContains q "blazedock" = false := hpre q (List.mem_cons_self _ _)
    rw [hq, if_neg Bool.false_ne_true]
    exact ih (fun c2 h2 => hpre c2 (List.mem_cons_of_mem _ h2)) hc

/-- C5: the Ownership Classifier marks a line foreign exactly when none of
its trailing suffix-comment tokens contains the sentinel "blazedock"
(regardless of sub-tokens such as "indirect" or "ignore"); a line without
suffix comments is foreign; and when a token does contain the sentinel
(the first such token deciding), the entry is owned with sub-kind indirect
if that token contains " indirect ", ignore if it contains " ignore ", and
direct otherwise. -/
theorem C5_classifier_foreign_and_owned (toks : List String) :
    ((isBdToks toks).1 = false ↔ ∀ c ∈ toks, strContains c "blazedock" = false) ∧
    (∀ pre c post, toks = pre ++ c :: post →
      (∀ c2 ∈ pre, strContains c2 "blazedock" = false) →
      strContains c "blazedock" = true →
      isBdToks toks =
        (true, if strContains c " indirect " = true then BdType.indirect
          else if strContains c " ignore " = true then BdType.ignore
          else BdType.direct)) ∧
    (isBlazedockReplace none).1 = false := by
  refine ⟨isBdToks_foreign_iff toks, ?_, rfl⟩
  intro pre c post heq hpre hc
  rw [heq]
  exact isBdToks_first c post pre hpre hc

theorem C5_witness :
    isBdToks ["// x", "// blazedock ignore it"] = (true, BdType.ignore) := by
  have h := (C5_classifier_foreign_and_owned ["// x", "// blazedock ignore it"]).2.1
    ["// x"] "// blazedock ignore it" [] rfl (by decide) (by decide)
  rw [h]
  decide

/-! ## C6: degraded linking with missing registry entries -/

/-- The owned-direct entries of a manifest. -/
def dirEntries (g : GoMod) : List Replace :=
  g.replace.filter fun r => entOwned r && (entTpe r == BdType.direct)

theorem applyAdds_append_ok (a b : List AddOp) :
    ∀ g g1, applyAdds g a = .ok g1 → applyAdds g (a ++ b) = applyAdds g1 b := by
  induction a with
  | nil =>
    intro g g1 h
    have : g = g1 := Except.ok.inj h
    subst this
    rfl
  | cons op rest ih =>
    intro g g1 h
    rw [List.cons_append]
    cases hstep : addReplace g op.old op.new op.direct op.source with
    | error e =>
      have h2 : applyAdds g (op :: rest) = .error e := by
        unfold applyAdds
        rw [hstep]
      rw [h2] at h
      cases h
    | ok g2 =>
      have h2 : applyAdds g2 rest = .ok g1 := by
        unfold applyAdds at h
        rw [hstep] at h
        exact h
      have h3 : applyAdds g (op :: (rest ++ b)) = applyAdds g2 (rest ++ b) := by
        conv_lhs => unfold applyAdds
        rw [hstep]
      rw [h3]
      exact ih g2 g1 h2

theorem applyAdds_fresh (ops : List AddOp) :
    ∀ g, (∀ r ∈ g.replace, entRemovable r = true) →
      ((ops.map fun op => op.old).Nodup) →
      (∀ op ∈ ops, ∀ r ∈ g.replace, r.old ≠ op.old) →
      applyAdds g ops = .ok ⟨g.modulePath, g.replace ++ ops.map addedEntry⟩ := by
  induction ops with
  | nil =>
    intro g _ _ _
    show Except.ok g = _
    simp
  | cons op rest ih =>
    intro g hrem hnodup hdisj
    have hc : CanAdd g op.old := fun r hr _ => hrem r hr
    have hfil : g.replace.filter (fun r => !(r.old == op.old)) = g.replace := by
      apply List.filter_eq_self.mpr
      intro r hr
      have hb : (r.old == op.old) = false := by
        rw [Bool.eq_false_iff]
        intro hb2
        exact hdisj op (List.mem_cons_self _ _) r hr (beq_iff_eq.mp hb2)
      rw [hb]
      rfl
    have happ : applyAdd1 g op = ⟨g.modulePath, g.replace ++ [addedEntry op]⟩ := by
      unfold applyAdd1
      rw [hfil]
    have hrem2 : ∀ r ∈ (⟨g.modulePath, g.replace ++ [addedEntry op]⟩ : GoMod).replace,
        entRemovable r = true := by
      intro r hr
      rcases List.mem_append.mp hr with h1 | h1
      · exact hrem r h1
      · rw [List.mem_singleton.mp h1]
        exact entRemovable_addedEntry op
    have hnodup2 : ((rest.map fun op2 => op2.old).Nodup) := (List.nodup_cons.mp hnodup).2
    have hkeyfresh : op.old ∉ rest.map fun op2 => op2.old := (List.nodup_cons.mp hnodup).1
    have hdisj2 : ∀ op2 ∈ rest,
        ∀ r ∈ (⟨g.modulePath, g.replace ++ [addedEntry op]⟩ : GoMod).replace,
          r.old ≠ op2.old := by
      intro op2 hop2 r hr heq
      rcases List.mem_append.mp hr with h1 | h1
      · exact hdisj op2 (List.mem_cons_of_mem _ hop2) r h1 heq
      · rw [List.mem_singleton.mp h1] at heq
        apply hkeyfresh
        rw [show op.old = op2.old from heq]
        exact List.mem_map_of_mem _ hop2
    unfold applyAdds
    rw [addReplace_ok g op hc, happ]
    show applyAdds ⟨g.modulePath, g.replace ++ [addedEntry op]⟩ rest =
      Except.ok ⟨g.modulePath, g.replace ++ List.map addedEntry (op :: rest)⟩
    rw [ih ⟨g.modulePath, g.replace ++ [addedEntry op]⟩ hrem2 hnodup2 hdisj2]
    simp

theorem applyAdds_indirect (ops : List AddOp) :
    ∀ g, (∀ r ∈ g.replace, entRemovable r = true) →
      (∀ op ∈ ops, op.direct = false) →
      (∀ op ∈ ops, ∀ r ∈ g.replace,
        (entOwned r && (entTpe r == BdType.direct)) = true → r.old ≠ op.old) →
      ∃ k, applyAdds g ops = .ok k ∧ dirEntries k = dirEntries g := by
  induction ops with
  | nil =>
    intro g _ _ _
    exact ⟨g, rfl, rfl⟩
  | cons op rest ih =>
    intro g hrem hind hdisj
    have hc : CanAdd g op.old := fun r hr _ => hrem r hr
    have hdir_added :
        (entOwned (addedEntry op) && (entTpe (addedEntry op) == BdType.direct)) = false := by
      rw [entTpe_addedEntry_indirect op (hind op (List.mem_cons_self _ _))]
      simp
    have hrem2 : ∀ r ∈ (applyAdd1 g op).replace, entRemovable r = true := by
      intro r hr
      unfold applyAdd1 at hr
      rcases List.mem_append.mp hr with h1 | h1
      · exact hrem r (List.mem_filter.mp h1).1
      · rw [List.mem_singleton.mp h1]
        exact entRemovable_addedEntry op
    have hind2 : ∀ op2 ∈ rest, op2.direct = false :=
      fun op2 h2 => hind op2 (List.mem_cons_of_mem _ h2)
    have hdisj2 : ∀ op2 ∈ rest, ∀ r ∈ (applyAdd1 g op).replace,
        (entOwned r && (entTpe r == BdType.direct)) = true → r.old ≠ op2.old := by
      intro op2 hop2 r hr hd heq
      unfold applyAdd1 at hr
      rcases List.mem_append.mp hr with h1 | h1
      · exact hdisj op2 (List.mem_cons_of_mem _ hop2) r (List.mem_filter.mp h1).1 hd heq
      · rw [List.mem_singleton.mp h1] at hd
        rw [hdir_added] at hd
        cases hd
    obtain ⟨k, hk, hkd⟩ := ih (applyAdd1 g op) hrem2 hind2 hdisj2
    refine ⟨k, ?_, ?_⟩
    · unfold applyAdds
      rw [addReplace_ok g op hc]
      exact hk
    · rw [hkd]
      unfold dirEntries applyAdd1
      rw [List.filter_append]
      have hnil : List.filter (fun r => entOwned r && (entTpe r == BdType.direct))
          [addedEntry op] = [] := by
        simp [hdir_added]
      rw [hnil, List.append_nil, List.filter_filter]
      apply List.filter_congr
      intro r hr
      by_cases hd : (entOwned r && (entTpe r == BdType.direct)) = true
      · have hb : (r.old == op.old) = false := by
          rw [Bool.eq_false_iff]
          intro hb2
          exact hdisj op (List.mem_cons_self _ _) r hr hd (beq_iff_eq.mp hb2)
        simp [hd, hb]
      · have hd2 : (entOwned r && (entTpe r == BdType.direct)) = false := by
          cases hb : (entOwned r && (entTpe r == BdType.direct)) with
          | false => rfl
          | true => exact absurd hb hd
        simp [hd2]

theorem linkAll_skip_all (mods : List (String × GoModuleR)) (p : Package)
    (l : List Package) :
    ∀ d, (∀ q ∈ l, q.name ≠ p.name) → linkAll d mods (some p) l = (.ok (), d) := by
  induction l with
  | nil => intro d _; rfl
  | cons q rest ih =>
    intro d h
    unfold linkAll
    by_cases h1 : (q.typ != PkgType.go) = true
    · rw [if_pos h1]
      exact ih d fun q2 h2 => h q2 (List.mem_cons_of_mem _ h2)
    · rw [if_neg h1]
      have h2 : skipTarget (some p) q = true := by
        unfold skipTarget
        simp [h q (List.mem_cons_self _ _)]
      rw [if_pos h2]
      exact ih d fun q2 h2 => h q2 (List.mem_cons_of_mem _ h2)

theorem linkAll_single (mods : List (String × GoModuleR)) (p : Package)
    (hgo : p.typ = PkgType.go) (l : List Package) :
    ∀ d, (l.map (fun q => q.name)).Nodup → p ∈ l →
      linkAll d mods (some p) l = linkGoModule d p (resolvedMods mods p) := by
  induction l with
  | nil =>
    intro d _ h
    simp at h
  | cons q rest ih =>
    intro d hnames hmem
    simp only [List.map_cons] at hnames
    unfold linkAll
    rcases List.mem_cons.mp hmem with hqp | hmem2
    · subst hqp
      have h1 : (p.typ != PkgType.go) = false := by
        rw [hgo]
        rfl
      rw [h1, if_neg Bool.false_ne_true]
      have h2 : skipTarget (some p) p = false := by
        unfold skipTarget
        simp
      rw [h2, if_neg Bool.false_ne_true]
      cases hlink : linkGoModule d p (resolvedMods mods p) with
      | mk res d2 =>
        cases res with
        | error e => rfl
        | ok u =>
          cases u
          have hpn : ∀ q2 ∈ rest, q2.name ≠ p.name := by
            intro q2 h2q heq
            apply (List.nodup_cons.mp hnames).1
            rw [← heq]
            exact List.mem_map_of_mem _ h2q
          exact linkAll_skip_all mods p rest d2 hpn
    · have hqn : q.name ≠ p.name := by
        intro heq
        apply (List.nodup_cons.mp hnames).1
        rw [heq]
        exact List.mem_map_of_mem _ hmem2
      by_cases h1 : (q.typ != PkgType.go) = true
      · rw [if_pos h1]
        exact ih d (List.nodup_cons.mp hnames).2 hmem2
      · rw [if_neg h1]
        have h2 : skipTarget (some p) q = true := by
          unfold skipTarget
          simp [hqn]
        rw [if_pos h2]
        exact ih d (List.nodup_cons.mp hnames).2 hmem2

theorem linkGoModule_fresh (d : Disk) (p : Package) (resolved : List GoModuleR) (g0 : GoMod)
    (hgm : p.hasGoMod = true) (hget : diskGet d p.name = some (.good g0))
    (hempty : g0.replace = [])
    (hdist : (resolved.map fun m => m.Name).Nodup)
    (hnocollide : ∀ m ∈ resolved, ∀ r ∈ m.Replacements,
      ∀ m2 ∈ resolved, r.old ≠ ⟨m2.Name, ""⟩) :
    ∃ k, linkGoModule d p resolved = (.ok (), diskSet d p.name (.good k)) ∧
      (dirEntries k).map (fun r => r.old) =
        resolved.map (fun m => (⟨m.Name, ""⟩ : ModVersion)) := by
  have hr0 : removeBdRules g0 = g0 := by
    unfold removeBdRules
    rw [hempty]
    rfl
  have hops : linkAddOps p.origin resolved =
      (resolved.map fun m =>
        (⟨⟨m.Name, ""⟩, ⟨filepathRel p.origin m.OriginPath, ""⟩, true,
          m.OriginPackage⟩ : AddOp)) ++
      (resolved.flatMap fun m =>
        m.Replacements.map fun r => (⟨r.old, r.new, false, m.OriginPackage⟩ : AddOp)) := rfl
  have hDnodup : (((resolved.map fun m =>
      (⟨⟨m.Name, ""⟩, ⟨filepathRel p.origin m.OriginPath, ""⟩, true,
        m.OriginPackage⟩ : AddOp)).map fun op => op.old)).Nodup := by
    rw [List.map_map]
    have hcomp : ((fun op : AddOp => op.old) ∘ fun m : GoModuleR =>
        (⟨⟨m.Name, ""⟩, ⟨filepathRel p.origin m.OriginPath, ""⟩, true,
          m.OriginPackage⟩ : AddOp)) =
        fun m : GoModuleR => (⟨m.Name, ""⟩ : ModVersion) := rfl
    rw [hcomp]
    have h2 : (resolved.map fun m => (⟨m.Name, ""⟩ : ModVersion)) =
        ((resolved.map fun m => m.Name).map fun s => (⟨s, ""⟩ : ModVersion)) := by
      rw [List.map_map]
      rfl
    rw [h2]
    exact hdist.map fun a b hab => congrArg ModVersion.path hab
  have hD := applyAdds_fresh
    (resolved.map fun m =>
      (⟨⟨m.Name, ""⟩, ⟨filepathRel p.origin m.OriginPath, ""⟩, true,
        m.OriginPackage⟩ : AddOp)) g0
    (fun r hr => by rw [hempty] at hr; exact absurd hr (List.not_mem_nil r))
    hDnodup
    (fun op _ r hr => by rw [hempty] at hr; exact absurd hr (List.not_mem_nil r))
  have hG1 : (⟨g0.modulePath, g0.replace ++ (resolved.map fun m =>
      (⟨⟨m.Name, ""⟩, ⟨filepathRel p.origin m.OriginPath, ""⟩, true,
        m.OriginPackage⟩ : AddOp)).map addedEntry⟩ : GoMod) =
      ⟨g0.modulePath, ((resolved.map fun m =>
        (⟨⟨m.Name, ""⟩, ⟨filepathRel p.origin m.OriginPath, ""⟩, true,
          m.OriginPackage⟩ : AddOp)).map addedEntry)⟩ := by
    rw [hempty]
    rfl
  rw [hG1] at hD
  have hremG1 : ∀ r ∈ (⟨g0.modulePath, ((resolved.map fun m =>
      (⟨⟨m.Name, ""⟩, ⟨filepathRel p.origin m.OriginPath, ""⟩, true,
        m.OriginPackage⟩ : AddOp)).map addedEntry)⟩ : GoMod).replace,
      entRemovable r = true := by
    intro r hr
    obtain ⟨op, _, hopeq⟩ := List.mem_map.mp hr
    rw [← hopeq]
    exact entRemovable_addedEntry op
  have hindI : ∀ op ∈ (resolved.flatMap fun m =>
      m.Replacements.map fun r => (⟨r.old, r.new, false, m.OriginPackage⟩ : AddOp)),
      op.direct = false := by
    intro op hop
    obtain ⟨m, _, hop2⟩ := List.mem_flatMap.mp hop
    obtain ⟨r, _, hopeq⟩ := List.mem_map.mp hop2
    rw [← hopeq]
  have hdisjI : ∀ op2 ∈ (resolved.flatMap fun m =>
      m.Replacements.map fun r => (⟨r.old, r.new, false, m.OriginPackage⟩ : AddOp)),
      ∀ r ∈ (⟨g0.modulePath, ((resolved.map fun m =>
        (⟨⟨m.Name, ""⟩, ⟨filepathRel p.origin m.OriginPath, ""⟩, true,
          m.OriginPackage⟩ : AddOp)).map addedEntry)⟩ : GoMod).replace,
        (entOwned r && (entTpe r == BdType.direct)) = true → r.old ≠ op2.old := by
    intro op2 hop2 r hr _ heq
    obtain ⟨m, hmmem, hop22⟩ := List.mem_flatMap.mp hop2
    obtain ⟨r2, hr2mem, hopeq2⟩ := List.mem_map.mp hop22
    obtain ⟨dop, hdopmem, hdopeq⟩ := List.mem_map.mp hr
    obtain ⟨m2, hm2mem, hm2eq⟩ := List.mem_map.mp hdopmem
    apply hnocollide m hmmem r2 hr2mem m2 hm2mem
    rw [show r2.old = op2.old from by rw [← hopeq2]]
    rw [← heq, ← hdopeq, ← hm2eq]
    rfl
  obtain ⟨k, hkAdds, hkDir⟩ := applyAdds_indirect
    (resolved.flatMap fun m =>
      m.Replacements.map fun r => (⟨r.old, r.new, false, m.OriginPackage⟩ : AddOp))
    (⟨g0.modulePath, ((resolved.map fun m =>
      (⟨⟨m.Name, ""⟩, ⟨filepathRel p.origin m.OriginPath, ""⟩, true,
        m.OriginPackage⟩ : AddOp)).map addedEntry)⟩ : GoMod)
    hremG1 hindI hdisjI
  have hall : applyAdds g0 (linkAddOps p.origin resolved) = .ok k := by
    rw [hops]
    rw [applyAdds_append_ok _ _ g0 _ hD]
    exact hkAdds
  have hdirG1 : dirEntries (⟨g0.modulePath, ((resolved.map fun m =>
      (⟨⟨m.Name, ""⟩, ⟨filepathRel p.origin m.OriginPath, ""⟩, true,
        m.OriginPackage⟩ : AddOp)).map addedEntry)⟩ : GoMod) =
      (resolved.map fun m =>
        (⟨⟨m.Name, ""⟩, ⟨filepathRel p.origin m.OriginPath, ""⟩, true,
          m.OriginPackage⟩ : AddOp)).map addedEntry := by
    unfold dirEntries
    apply List.filter_eq_self.mpr
    intro r hr
    obtain ⟨op, hmemop, heqop⟩ := List.mem_map.mp hr
    obtain ⟨m, hmemm, heqm⟩ := List.mem_map.mp hmemop
    rw [← heqop, entOwned_addedEntry op,
      entTpe_addedEntry_direct op (by rw [← heqm])]
    rfl
  refine ⟨k, ?_, ?_⟩
  · rw [linkGoModule_eq d p resolved g0 hgm hget, hr0, hall]
  · rw [hkDir, hdirG1, List.map_map, List.map_map]
    rfl

/-- C6: a missing registry entry for a resolved dependency is non-fatal:
for a target whose manifest starts without replace entries, whose resolved
(found-in-registry) dependencies have pairwise-distinct module identities,
and whose replayed overrides do not collide with the direct keys, even
when some Go dependency of the target has no registry entry,
`LinkGoModules` succeeds, still writes the target's manifest, and the
written manifest carries exactly one owned-direct entry per resolved
dependency — keyed by its module identity, in sorted order — and none for
the missing dependencies. -/
theorem C6_missing_registry_nonfatal (d : Disk) (ws : Workspace) (p : Package)
    (mods : List (String × GoModuleR)) (g0 : GoMod)
    (hnames : (ws.packages.map fun q => q.name).Nodup)
    (hmem : p ∈ ws.packages) (hgo : p.typ = PkgType.go) (hgm : p.hasGoMod = true)
    (hget : diskGet d p.name = some (.good g0)) (hempty : g0.replace = [])
    (hcol : collectReplacements d ws.packages = .ok mods)
    (_hmiss : ∃ dep ∈ p.transDeps, dep.typ = PkgType.go ∧ lookupMods mods dep.name = none)
    (hdist : ((resolvedMods mods p).map fun m => m.Name).Nodup)
    (hnocollide : ∀ m ∈ resolvedMods mods p, ∀ r ∈ m.Replacements,
      ∀ m2 ∈ resolvedMods mods p, r.old ≠ ⟨m2.Name, ""⟩) :
    ∃ k, LinkGoModules d ws (some p) = (.ok (), diskSet d p.name (.good k)) ∧
      (dirEntries k).map (fun r => r.old) =
        (resolvedMods mods p).map (fun m => (⟨m.Name, ""⟩ : ModVersion)) := by
  obtain ⟨k, hlink, hdir⟩ :=
    linkGoModule_fresh d p (resolvedMods mods p) g0 hgm hget hempty hdist hnocollide
  refine ⟨k, ?_, hdir⟩
  unfold LinkGoModules
  rw [hcol]
  show linkAll d mods (some p) ws.packages = (.ok (), diskSet d p.name (.good k))
  rw [linkAll_single mods p hgo ws.packages d hnames hmem, hlink]

/-! ## C9: workspace synchronizer membership -/

theorem dropOwnedUsesLoop_eq (l : List UseEntry) :
    ∀ wf : WorkFile, dropOwnedUsesLoop wf l =
      ⟨wf.use.filter fun u => !(l.any fun e => useOwned e && e.path == u.path)⟩ := by
  induction l with
  | nil =>
    intro wf
    show wf = _
    simp
  | cons u rest ih =>
    intro wf
    by_cases hu : useOwned u = true
    · rw [dropOwnedUsesLoop, if_pos hu, ih]
      show (⟨(wf.dropUse u.path).use.filter _⟩ : WorkFile) = _
      unfold WorkFile.dropUse
      simp only [List.filter_filter]
      congr 1
      apply List.filter_congr
      intro x _
      have hBC : (x.path == u.path) = (u.path == x.path) := by
        rw [Bool.eq_iff_iff, beq_iff_eq, beq_iff_eq]
        exact eq_comm
      simp [List.any_cons, hu, hBC, Bool.not_or, Bool.and_comm]
    · have hu2 : useOwned u = false := by
        cases hb : useOwned u with
        | false => rfl
        | true => exact absurd hb hu
      rw [dropOwnedUsesLoop, if_neg hu, ih]
      congr 1
      apply List.filter_congr
      intro x _
      simp [List.any_cons, hu2]

theorem dropOwnedUses_no_owned (wf : WorkFile) :
    ∀ u ∈ (dropOwnedUsesLoop wf wf.use).use, useOwned u = false := by
  rw [dropOwnedUsesLoop_eq]
  intro u hu
  obtain ⟨hmem, hpred⟩ := List.mem_filter.mp hu
  by_contra hcon
  rw [Bool.not_eq_false] at hcon
  have : (wf.use.any fun e => useOwned e && e.path == u.path) = true :=
    List.any_eq_true.mpr ⟨u, hmem, by rw [hcon]; simp⟩
  rw [this] at hpred
  cases hpred

theorem mem_insStr (x : String) (l : List String) (a : String) :
    a ∈ insStr x l ↔ a = x ∨ a ∈ l := by
  induction l with
  | nil => simp [insStr]
  | cons y ys ih =>
    unfold insStr
    by_cases h : strLe x y = true
    · rw [if_pos h]
      simp [List.mem_cons]
    · rw [if_neg h]
      simp only [List.mem_cons, ih]
      tauto

theorem mem_sortStrings (l : List String) (a : String) :
    a ∈ sortStrings l ↔ a ∈ l := by
  induction l with
  | nil => simp [sortStrings]
  | cons x xs ih =>
    unfold sortStrings
    rw [mem_insStr]
    simp [ih, List.mem_cons]

theorem charListLe_total (a : List Char) :
    ∀ b, charListLe a b = false → charListLe b a = true := by
  induction a with
  | nil =>
    intro b h
    simp [charListLe] at h
  | cons c cs ih =>
    intro b h
    cases b with
    | nil => simp [charListLe]
    | cons e es =>
      unfold charListLe at h ⊢
      by_cases h1 : c.toNat < e.toNat
      · rw [if_pos h1] at h
        cases h
      · rw [if_neg h1] at h
        by_cases h2 : e.toNat < c.toNat
        · rw [if_pos h2]
        · rw [if_neg h2] at h
          rw [if_neg h2, if_neg h1]
          exact ih es h

theorem charListLe_trans : ∀ a b c : List Char,
    charListLe a b = true → charListLe b c = true → charListLe a c = true
  | [], _, _, _, _ => by simp [charListLe]
  | _ :: _, [], _, hab, _ => by simp [charListLe] at hab
  | _ :: _, _ :: _, [], _, hbc => by simp [charListLe] at hbc
  | x :: xs, y :: ys, z :: zs, hab, hbc => by
    unfold charListLe at hab hbc ⊢
    by_cases h1 : x.toNat < y.toNat
    · by_cases h2 : y.toNat < z.toNat
      · rw [if_pos (Nat.lt_trans h1 h2)]
      · rw [if_neg h2] at hbc
        by_cases h3 : z.toNat < y.toNat
        · rw [if_pos h3] at hbc
          cases hbc
        · have hxz : x.toNat < z.toNat := by omega
          rw [if_pos hxz]
    · rw [if_neg h1] at hab
      by_cases h4 : y.toNat < x.toNat
      · rw [if_pos h4] at hab
        cases hab
      · rw [if_neg h4] at hab
        by_cases h2 : y.toNat < z.toNat
        · have hxz : x.toNat < z.toNat := by omega
          rw [if_pos hxz]
        · rw [if_neg h2] at hbc
          by_cases h3 : z.toNat < y.toNat
          · rw [if_pos h3] at hbc
            cases hbc
          · rw [if_neg h3] at hbc
            have hxz : ¬ x.toNat < z.toNat := by omega
            have hzx : ¬ z.toNat < x.toNat := by omega
            rw [if_neg hxz, if_neg hzx]
            exact charListLe_trans xs ys zs hab hbc

theorem strLe_total (a b : String) (h : strLe a b = false) : strLe b a = true :=
  charListLe_total a.toList b.toList h

theorem strLe_trans (a b c : String) (hab : strLe a b = true) (hbc : strLe b c = true) :
    strLe a c = true :=
  charListLe_trans a.toList b.toList c.toList hab hbc

theorem pairwise_insStr (x : String) (l : List String)
    (h : l.Pairwise fun a b => strLe a b = true) :
    (insStr x l).Pairwise fun a b => strLe a b = true := by
  induction l with
  | nil => simp [insStr]
  | cons y ys ih =>
    obtain ⟨hy, hys⟩ := List.pairwise_cons.mp h
    unfold insStr
    by_cases hxy : strLe x y = true
    · rw [if_pos hxy]
      apply List.pairwise_cons.mpr
      refine ⟨?_, h⟩
      intro b hb
      rcases List.mem_cons.mp hb with h1 | h1
      · rw [h1]
        exact hxy
      · exact strLe_trans x y b hxy (hy b h1)
    · rw [if_neg hxy]
      apply List.pairwise_cons.mpr
      refine ⟨?_, ih hys⟩
      intro b hb
      rw [mem_insStr] at hb
      rcases hb with h1 | h1
      · rw [h1]
        apply strLe_total
        cases hq : strLe x y with
        | false => rfl
        | true => exact absurd hq hxy
      · exact hy b h1

theorem pairwise_sortStrings (l : List String) :
    (sortStrings l).Pairwise fun a b => strLe a b = true := by
  induction l with
  | nil => simp [sortStrings]
  | cons x xs ih =>
    unfold sortStrings
    exact pairwise_insStr x (sortStrings xs) ih

theorem insStr_perm (x : String) (l : List String) : (insStr x l).Perm (x :: l) := by
  induction l with
  | nil => exact List.Perm.refl _
  | cons y ys ih =>
    unfold insStr
    by_cases h : strLe x y = true
    · rw [if_pos h]
    · rw [if_neg h]
      exact (ih.cons y).trans (List.Perm.swap x y ys)

theorem sortStrings_perm (l : List String) : (sortStrings l).Perm l := by
  induction l with
  | nil => exact List.Perm.refl _
  | cons x xs ih =>
    unfold sortStrings
    exact (insStr_perm x (sortStrings xs)).trans (ih.cons x)

theorem sortedGoDirs_nodup (ws : Workspace) : (sortedGoDirs ws).Nodup := by
  unfold sortedGoDirs goDirs
  exact ((sortStrings_perm _).symm).nodup (List.nodup_dedup _)

theorem teardownAll_ok (l : List Package) :
    ∀ d, (∀ p ∈ l, p.typ = PkgType.go →
        p.hasGoMod = true ∧ ∃ g, diskGet d p.name = some (.good g)) →
      ∃ d2, teardownAll d l = (.ok (), d2) := by
  induction l with
  | nil => intro d _; exact ⟨d, rfl⟩
  | cons p rest ih =>
    intro d h
    unfold teardownAll
    by_cases h1 : (p.typ != PkgType.go) = true
    · rw [if_pos h1]
      exact ih d fun q hq => h q (List.mem_cons_of_mem _ hq)
    · rw [if_neg h1]
      have hgo : p.typ = PkgType.go := by
        cases ht : p.typ with
        | go => rfl
        | other =>
          exfalso
          apply h1
          rw [ht]
          rfl
      obtain ⟨hgm, g, hget⟩ := h p (List.mem_cons_self _ _) hgo
      have hrm : removeBlazedockReplaceRules d p =
          (.ok (), diskSet d p.name (.good (removeBdRules g))) := by
        unfold removeBlazedockReplaceRules
        rw [modifyGoMod_eq d p _ hgm g hget]
      rw [hrm]
      apply ih
      intro q hq hqgo
      obtain ⟨hqgm, g2, hqget⟩ := h q (List.mem_cons_of_mem _ hq) hqgo
      refine ⟨hqgm, ?_⟩
      rw [diskGet_set]
      by_cases he : p.name = q.name
      · rw [if_pos he]
        exact ⟨removeBdRules g, rfl⟩
      · rw [if_neg he]
        exact ⟨g2, hqget⟩

theorem linkWorkFile_eq (ws : Workspace) (wf : WorkFile) :
    linkWorkFile ws wf =
      ⟨((dropOwnedUsesLoop wf wf.use).use ++
          (sortedGoDirs ws).map fun q => (⟨q, [], false⟩ : UseEntry)).map
        fun u => if (goDirs ws).contains u.path then
          { u with suffix := ["// blazedock"], inBlock := true } else u⟩ := rfl

/-- A file that exists and parses. -/
def goodFile : Option DiskFile → Prop
  | some (.good _) => True
  | _ => False

instance : ∀ o : Option DiskFile, Decidable (goodFile o)
  | some (.good _) => inferInstanceAs (Decidable True)
  | some .bad => inferInstanceAs (Decidable False)
  | none => inferInstanceAs (Decidable False)

theorem goodFile_ex (o : Option DiskFile) (h : goodFile o) :
    ∃ g, o = some (.good g) := by
  cases o with
  | none => cases h
  | some f =>
    cases f with
    | bad => cases h
    | good g => exact ⟨g, rfl⟩

/-- C9: when the workspace manifest exists and every Go package's go.mod
is present and parseable, the Workspace Synchronizer succeeds, and in the
resulting workspace manifest the set of owned use-entry paths is exactly
the set of Go packages' origin directories relative to the workspace root;
that computed path list is duplicate-free and sorted ascending; every
previously owned use entry of every owned sub-kind was dropped; and every
owned entry now sits in the annotated block with the ownership comment. -/
theorem C9_workspace_membership (st : WsState) (ws : Workspace) (wf : WorkFile)
    (hwork : st.work = some wf)
    (hready : ∀ p ∈ ws.packages, p.typ = PkgType.go →
      p.hasGoMod = true ∧ goodFile (diskGet st.disk p.name)) :
    ∃ d2, LinkGoWorkspace st ws = (.ok (), ⟨some (linkWorkFile ws wf), d2⟩) ∧
      (∀ q, (∃ u ∈ (linkWorkFile ws wf).use, useOwned u = true ∧ u.path = q) ↔
        q ∈ sortedGoDirs ws) ∧
      (sortedGoDirs ws).Pairwise (fun a b => strLe a b = true) ∧
      (sortedGoDirs ws).Nodup ∧
      (∀ u ∈ (linkWorkFile ws wf).use, useOwned u = true →
        u.inBlock = true ∧ u.suffix = ["// blazedock"]) := by
  obtain ⟨d2, htd⟩ := teardownAll_ok ws.packages st.disk (by
    intro p hp hgo
    obtain ⟨hgm, hgood⟩ := hready p hp hgo
    exact ⟨hgm, goodFile_ex _ hgood⟩)
  refine ⟨d2, ?_, ?_, pairwise_sortStrings _, sortedGoDirs_nodup ws, ?_⟩
  · unfold LinkGoWorkspace
    rw [hwork]
    show ((match teardownAll st.disk ws.packages with
      | (.error e, d') => (.error e, (⟨some (linkWorkFile ws wf), d'⟩ : WsState))
      | (.ok _, d') => (.ok (), (⟨some (linkWorkFile ws wf), d'⟩ : WsState))) :
        Except String Unit × WsState) =
      (.ok (), (⟨some (linkWorkFile ws wf), d2⟩ : WsState))
    rw [htd]
  · intro q
    rw [linkWorkFile_eq]
    constructor
    · rintro ⟨u, hu, hown, hpath⟩
      obtain ⟨u0, hu0, hmark⟩ := List.mem_map.mp hu
      by_cases hin : ((goDirs ws).contains u0.path) = true
      · have hval : u = { u0 with suffix := ["// blazedock"], inBlock := true } := by
          rw [← hmark]
          show (if (goDirs ws).contains u0.path = true then
            ({ u0 with suffix := ["// blazedock"], inBlock := true } : UseEntry) else u0) = _
          rw [if_pos hin]
        have hq : u0.path = q := by
          rw [hval] at hpath
          exact hpath
        rw [← hq]
        unfold sortedGoDirs
        rw [mem_sortStrings]
        simpa using hin
      · have hval : u = u0 := by
          rw [← hmark]
          show (if (goDirs ws).contains u0.path = true then
            ({ u0 with suffix := ["// blazedock"], inBlock := true } : UseEntry) else u0) = _
          rw [if_neg hin]
        rw [hval] at hown
        rcases List.mem_append.mp hu0 with h1 | h1
        · have hno := dropOwnedUses_no_owned wf u0 h1
          rw [hown] at hno
          cases hno
        · obtain ⟨q2, _, hq2⟩ := List.mem_map.mp h1
          rw [← hq2] at hown
          exact Bool.noConfusion hown
    · intro hq
      refine ⟨⟨q, ["// blazedock"], true⟩, ?_, ?_, rfl⟩
      · apply List.mem_map.mpr
        refine ⟨⟨q, [], false⟩, ?_, ?_⟩
        · exact List.mem_append_right _ (List.mem_map.mpr ⟨q, hq, rfl⟩)
        · have hqmem : q ∈ goDirs ws := by
            have h2 := hq
            unfold sortedGoDirs at h2
            rw [mem_sortStrings] at h2
            exact h2
          have hin : ((goDirs ws).contains q) = true := by
            simpa using hqmem
          show (if (goDirs ws).contains q = true then
            (⟨q, ["// blazedock"], true⟩ : UseEntry) else ⟨q, [], false⟩) =
            ⟨q, ["// blazedock"], true⟩
          rw [if_pos hin]
      · show (isBdToks ["// blazedock"]).1 = true
        decide
  · intro u hu hown
    rw [linkWorkFile_eq] at hu
    obtain ⟨u0, hu0, hmark⟩ := List.mem_map.mp hu
    by_cases hin : ((goDirs ws).contains u0.path) = true
    · have hval : u = { u0 with suffix := ["// blazedock"], inBlock := true } := by
        rw [← hmark]
        show (if (goDirs ws).contains u0.path = true then
          ({ u0 with suffix := ["// blazedock"], inBlock := true } : UseEntry) else u0) = _
        rw [if_pos hin]
      rw [hval]
      exact ⟨rfl, rfl⟩
    · have hval : u = u0 := by
        rw [← hmark]
        show (if (goDirs ws).contains u0.path = true then
          ({ u0 with suffix := ["// blazedock"], inBlock := true } : UseEntry) else u0) = _
        rw [if_neg hin]
      rw [hval] at hown
      rcases List.mem_append.mp hu0 with h1 | h1
      · have hno := dropOwnedUses_no_owned wf u0 h1
        rw [hown] at hno
        cases hno
      · obtain ⟨q2, _, hq2⟩ := List.mem_map.mp h1
        rw [← hq2] at hown
        exact Bool.noConfusion hown

def c6q : Package := ⟨"c:q", .go, "/w/q", false, []⟩
def c6r : Package := ⟨"c:r", .go, "/w/r", true, []⟩
def c6p : Package := ⟨"c:p", .go, "/w/p", true, [⟨"c:q", .go⟩, ⟨"c:r", .go⟩]⟩
def c6ws : Workspace := ⟨"/w", [c6p, c6q, c6r]⟩
def c6d : Disk := [("c:p", .good ⟨"mod.p", []⟩), ("c:r", .good ⟨"mod.r", []⟩)]
def c6mods : List (String × GoModuleR) :=
  [("c:p", ⟨"mod.p", "/w/p", "c:p", []⟩), ("c:r", ⟨"mod.r", "/w/r", "c:r", []⟩)]

theorem C6_witness :
    collectReplacements c6d c6ws.packages = .ok c6mods ∧
      (∃ dep ∈ c6p.transDeps, dep.typ = PkgType.go ∧ lookupMods c6mods dep.name = none) ∧
      ∃ k, LinkGoModules c6d c6ws (some c6p) = (.ok (), diskSet c6d c6p.name (.good k)) ∧
        (dirEntries k).map (fun r => r.old) =
          (resolvedMods c6mods c6p).map (fun m => (⟨m.Name, ""⟩ : ModVersion)) :=
  ⟨by decide, by decide,
    C6_missing_registry_nonfatal c6d c6ws c6p c6mods ⟨"mod.p", []⟩ (by decide) (by decide)
      (by decide) (by decide) (by decide) (by decide) (by decide) (by decide) (by decide)
      (by decide)⟩

def c9wf : WorkFile := ⟨[⟨"old", ["// blazedock"], true⟩, ⟨"keep", ["// mine"], false⟩]⟩
def c9st : WsState := ⟨some c9wf, c4d⟩

theorem C9_witness :
    c9st.work = some c9wf ∧
      ∃ d2, LinkGoWorkspace c9st c4ws = (.ok (), ⟨some (linkWorkFile c4ws c9wf), d2⟩) ∧
        (∀ q, (∃ u ∈ (linkWorkFile c4ws c9wf).use, useOwned u = true ∧ u.path = q) ↔
          q ∈ sortedGoDirs c4ws) ∧
        (sortedGoDirs c4ws).Pairwise (fun a b => strLe a b = true) ∧
        (sortedGoDirs c4ws).Nodup ∧
        (∀ u ∈ (linkWorkFile c4ws c9wf).use, useOwned u = true →
          u.inBlock = true ∧ u.suffix = ["// blazedock"]) :=
  ⟨rfl, C9_workspace_membership c9st c4ws c9wf rfl (by decide)⟩
